import Mathlib

/-!
Verification of the Collapsi 4x4 solver (C++ sources under src/cpp) against its
natural-language specification.  The C++ code is embedded shallowly:

* 16-bit bitboards are `Nat` values; the C++ `uint16_t` truncations are made
  explicit where they occur (`&&& (65535 ^^^ bit i)` for `bbX &= ~bit(i)`),
  and theorems carry `< 65536` hypotheses exactly where the C++ types
  guarantee them.
* 64-bit arithmetic in the hash is `Nat` arithmetic with explicit `% 2 ^ 64`.
* The recursive solver `Solver::solve_rec` is embedded twice: `solveRec` is
  the recursion with the memo cache treated as transparent (pure answers),
  and `solveRecC` threads the `unordered_map<Key64, Answer>` cache
  explicitly as an association list keyed by `hash_state`.  Recursion uses
  fuel; `solveRec_fuel_eq` shows the answer is fuel-independent past a
  bound, so `solve` is a total function of the state.
* `double` arithmetic in the batch-health check is modelled as exact
  rational arithmetic (`ℚ`); all quantities are ratios of integers.
-/

namespace Collapsi

/-- One bit per cell, as in `bit` of bitboard.hpp (`1u << idx`); all board
indices used by the programs are `< 16`. -/
def bit (i : Nat) : Nat := 1 <<< i

/-- Torus neighbor table `NEI_UP` from bitboard.cpp. -/
def NEI_UP : List Nat := [12, 13, 14, 15, 0, 1, 2, 3, 4, 5, 6, 7, 8, 9, 10, 11]

/-- Torus neighbor table `NEI_DOWN` from bitboard.cpp. -/
def NEI_DOWN : List Nat := [4, 5, 6, 7, 8, 9, 10, 11, 12, 13, 14, 15, 0, 1, 2, 3]

/-- Torus neighbor table `NEI_LEFT` from bitboard.cpp. -/
def NEI_LEFT : List Nat := [3, 0, 1, 2, 7, 4, 5, 6, 11, 8, 9, 10, 15, 12, 13, 14]

/-- Torus neighbor table `NEI_RIGHT` from bitboard.cpp. -/
def NEI_RIGHT : List Nat := [1, 2, 3, 0, 5, 6, 7, 4, 9, 10, 11, 8, 13, 14, 15, 12]

def neiUp (i : Nat) : Nat := NEI_UP.getD i 0
def neiDown (i : Nat) : Nat := NEI_DOWN.getD i 0
def neiLeft (i : Nat) : Nat := NEI_LEFT.getD i 0
def neiRight (i : Nat) : Nat := NEI_RIGHT.getD i 0

/-- The four neighbors of a cell, in the order tried by `dfs_paths`. -/
def neighborsOf (i : Nat) : List Nat := [neiUp i, neiDown i, neiLeft i, neiRight i]

/-- One orthogonal single step on the torus, via the neighbor tables. -/
def adjacentStep (a b : Nat) : Prop := b ∈ neighborsOf a

/-- The game state, `struct BitState` of bitboard.hpp.  Fields are the four
card bitboards, the two player-position bitboards, the collapsed-cell
bitboard (all `uint16_t`) and the side to move (`uint8_t`). -/
structure BitState where
  bbA : Nat
  bb2 : Nat
  bb3 : Nat
  bb4 : Nat
  bbX : Nat
  bbO : Nat
  bbCollapsed : Nat
  turn : Nat
deriving DecidableEq, Repr

/-- The C++ `uint16_t` field bounds that matter to the solver. -/
def Wf16 (s : BitState) : Prop :=
  s.bbX < 65536 ∧ s.bbO < 65536 ∧ s.bbCollapsed < 65536

instance (s : BitState) : Decidable (Wf16 s) := by unfold Wf16; infer_instance

/-- `steps_from` of bitboard.cpp: card value at a cell, defaulting to 1. -/
def steps_from (s : BitState) (cellIndex : Nat) : Nat :=
  let cellMask := bit cellIndex
  if s.bbA &&& cellMask ≠ 0 then 1
  else if s.bb2 &&& cellMask ≠ 0 then 2
  else if s.bb3 &&& cellMask ≠ 0 then 3
  else if s.bb4 &&& cellMask ≠ 0 then 4
  else 1

/-- `dfs_paths` of bitboard.cpp, with the accumulated out-mask returned as a
value: the union over the four neighbor steps of the recursive masks.
Recursion is structural on `remainingSteps`. -/
def dfs_paths (startIndex opponentIndex blockedMask : Nat) :
    Nat → Nat → Nat → Nat
  | 0, currentIndex, _ =>
      if currentIndex ≠ startIndex ∧ currentIndex ≠ opponentIndex then bit currentIndex else 0
  | remainingSteps + 1, currentIndex, visitedMask =>
      let tryStep := fun (nextIndex : Nat) =>
        if blockedMask &&& bit nextIndex ≠ 0 then 0
        else if visitedMask &&& bit nextIndex ≠ 0 then 0
        else dfs_paths startIndex opponentIndex blockedMask remainingSteps nextIndex
              (visitedMask ||| bit nextIndex)
      tryStep (neiUp currentIndex) ||| tryStep (neiDown currentIndex) |||
      tryStep (neiLeft currentIndex) ||| tryStep (neiRight currentIndex)

/-- `enumerate_destinations` of bitboard.cpp. -/
def enumerate_destinations (s : BitState) (startIndex stepCount opponentIndex : Nat) : Nat :=
  dfs_paths startIndex opponentIndex s.bbCollapsed stepCount startIndex (bit startIndex)

/-- `apply_move` of bitboard.cpp: collapse the start cell, move the mover's
bit, flip the turn.  `bbX &= ~bit(start)` on `uint16_t` is
`&&& (65535 ^^^ bit startIndex)`. -/
def apply_move (s : BitState) (startIndex destIndex : Nat) : BitState :=
  let coll := s.bbCollapsed ||| bit startIndex
  if s.turn = 0 then
    { s with bbCollapsed := coll,
             bbX := (s.bbX &&& (65535 ^^^ bit startIndex)) ||| bit destIndex,
             turn := 1 }
  else
    { s with bbCollapsed := coll,
             bbO := (s.bbO &&& (65535 ^^^ bit startIndex)) ||| bit destIndex,
             turn := 0 }

/-- `pair64` of hash.hpp: Szudzik pairing with wraparound modulo 2^64. -/
def pair64 (l r : Nat) : Nat :=
  if r ≤ l then (l * l + l + r) % 2 ^ 64 else (l + r * r) % 2 ^ 64

/-- `mix64` of hash.hpp: the SplitMix64 finalizer. -/
def mix64 (v : Nat) : Nat :=
  let v1 := (v + 0x9e3779b97f4a7c15) % 2 ^ 64
  let v2 := ((v1 ^^^ (v1 >>> 30)) * 0xbf58476d1ce4e5b9) % 2 ^ 64
  let v3 := ((v2 ^^^ (v2 >>> 27)) * 0x94d049bb133111eb) % 2 ^ 64
  v3 ^^^ (v3 >>> 31)

/-- `hash_state` of hash.cpp: fold `pair64` from 0 over the eight fields,
then one `mix64`. -/
def hash_state (aM twoM threeM fourM xM oM collM turnV : Nat) : Nat :=
  mix64 (List.foldl pair64 0 [aM, twoM, threeM, fourM, xM, oM, collM, turnV])

/-- Hash of a whole state, as the solver computes its cache key. -/
def hashOf (s : BitState) : Nat :=
  hash_state s.bbA s.bb2 s.bb3 s.bb4 s.bbX s.bbO s.bbCollapsed s.turn

/-- `struct Answer` of solver.hpp. -/
structure Answer where
  win : Bool
  best_move : Nat
  plies : Nat
deriving DecidableEq, Repr

/-- `encode_move` of solver.hpp. -/
def encode_move (fromIndex toIndex : Nat) : Nat :=
  ((fromIndex &&& 0xF) <<< 4) ||| (toIndex &&& 0xF)

/-- `move_from` of solver.hpp. -/
def move_from (encodedMove : Nat) : Nat := (encodedMove >>> 4) &&& 0xF

/-- `move_to` of solver.hpp. -/
def move_to (encodedMove : Nat) : Nat := encodedMove &&& 0xF

/-- `piece_idx` of solver.cpp: first set bit among cells 0..15, else 0. -/
def piece_idx (bitboard : Nat) : Nat :=
  ((List.range 16).find? (fun i => bitboard &&& bit i != 0)).getD 0

/-- The set bits of a 16-bit mask in increasing order; this is the
iteration order of every `for (i = 0; i < BOARD_N; ++i) if (mask & bit(i))`
loop in solver.cpp. -/
def bitsOf (m : Nat) : List Nat :=
  (List.range 16).filter (fun i => m &&& bit i != 0)

/-- `std::popcount` on a 16-bit mask. -/
def popcount16 (m : Nat) : Nat := (bitsOf m).length

/-- The cell of the side to move (`currentPlayerIndex` in solve_rec). -/
def currentPlayerIndex (s : BitState) : Nat :=
  if s.turn = 0 then piece_idx s.bbX else piece_idx s.bbO

/-- The cell of the side not to move (`opponentIndex` in solve_rec). -/
def opponentIndex (s : BitState) : Nat :=
  if s.turn = 0 then piece_idx s.bbO else piece_idx s.bbX

/-- The legal-destination mask of the side to move, as solve_rec computes
it (`enumerate_destinations(state, me, steps_from(state, me), opp)`). -/
def destinationsOf (s : BitState) : Nat :=
  enumerate_destinations s (currentPlayerIndex s)
    (steps_from s (currentPlayerIndex s)) (opponentIndex s)

/-- One candidate move with its opponent-reply count, `struct Item` of
solve_rec's ordering phase. -/
def rawMoves (s : BitState) : List (Nat × Nat) :=
  (bitsOf (destinationsOf s)).map (fun destinationIndex =>
    (encode_move (currentPlayerIndex s) destinationIndex,
     popcount16 (destinationsOf (apply_move s (currentPlayerIndex s) destinationIndex))))

/-- The strict comparator of solve_rec's `std::stable_sort`: moves leaving
exactly one opponent reply first, then ascending reply count. -/
def moveLt (a b : Nat × Nat) : Bool :=
  if a.2 == 1 && b.2 != 1 then true
  else if a.2 != 1 && b.2 == 1 then false
  else a.2 < b.2

/-- Insert before the first strictly-greater element, keeping
original order among ties: the insertion step of a stable sort. -/
def insertStable (lt : α → α → Bool) (x : α) : List α → List α
  | [] => [x]
  | y :: ys => if lt x y then x :: y :: ys else y :: insertStable lt x ys

/-- Stable insertion sort, the semantics of `std::stable_sort`. -/
def stableSort (lt : α → α → Bool) (l : List α) : List α :=
  l.foldl (fun acc x => insertStable lt x acc) []

/-- The heuristic-ordered candidate moves of solve_rec. -/
def orderedMoves (s : BitState) : List (Nat × Nat) :=
  stableSort moveLt (rawMoves s)

/-- The three per-move accumulators of solve_rec's inner reply loop. -/
structure ReplyAcc where
  allWin : Bool
  worstWinPlies : Nat
  bestLossPliesForThis : Nat
deriving DecidableEq, Repr

/-- The inner loop of solve_rec over the opponent's replies `j ∈ R`:
recursively solve each reply state two plies down and accumulate. -/
def scanReplies (recur : BitState → Answer) (nextState : BitState) :
    List Nat → ReplyAcc → ReplyAcc
  | [], acc => acc
  | j :: rest, acc =>
      let replyAnswer := recur (apply_move nextState (currentPlayerIndex nextState) j)
      let acc' :=
        if replyAnswer.win = false then
          { acc with allWin := false,
                     bestLossPliesForThis :=
                       if replyAnswer.plies + 2 < acc.bestLossPliesForThis then
                         replyAnswer.plies + 2
                       else acc.bestLossPliesForThis }
        else
          { acc with worstWinPlies :=
                       if replyAnswer.plies + 2 > acc.worstWinPlies then
                         replyAnswer.plies + 2
                       else acc.worstWinPlies }
      scanReplies recur nextState rest acc'

/-- Evaluation of one candidate move of solve_rec: apply it, enumerate the
opponent's replies, and run the reply loop. -/
def evalMove (recur : BitState → Answer) (s : BitState) (mv : Nat) : ReplyAcc :=
  let nextState := apply_move s (currentPlayerIndex s) (move_to mv)
  scanReplies recur nextState (bitsOf (destinationsOf nextState)) ⟨true, 0, 1 <<< 29⟩

/-- The candidate loop of solve_rec at depth > 0: short-circuit on the
first winning move, otherwise keep the latest defeat.  `bestWinMove` of
the source is never written before the loop ends, so the final answer is
always the losing one (that branch of the source is dead).  The
`static_cast<uint16_t>` on the stored plies is the `% 65536`. -/
def searchLoop (recur : BitState → Answer) (s : BitState) :
    List (Nat × Nat) → Int → Nat → Answer
  | [], bestLossPlies, bestLossMove =>
      ⟨false, bestLossMove, (if bestLossPlies < 0 then 0 else bestLossPlies.toNat) % 65536⟩
  | m :: rest, bestLossPlies, bestLossMove =>
      let acc := evalMove recur s m.1
      if acc.allWin then
        let pl := if acc.worstWinPlies = 0 then 1 else acc.worstWinPlies
        ⟨true, m.1, pl % 65536⟩
      else
        let blft := if acc.bestLossPliesForThis = 1 <<< 29 then 2 else acc.bestLossPliesForThis
        if (blft : Int) > bestLossPlies then
          searchLoop recur s rest (blft : Int) m.1
        else
          searchLoop recur s rest bestLossPlies bestLossMove

/-- `Solver::solve_rec` at depth > 0, with the memo cache transparent:
fueled recursion on the two-ply game tree.  `solveRecC` below threads the
cache explicitly, and `c8_amended` relates the two. -/
def solveRec : Nat → BitState → Answer
  | 0, _ => ⟨false, 0xFF, 0⟩
  | fuel + 1, s =>
      if destinationsOf s = 0 then ⟨false, 0xFF, 0⟩
      else searchLoop (fun t => solveRec fuel t) s (orderedMoves s) (-1) 0xFF

/-- `Solver::solve`'s answer.  Fuel 338 exceeds the recursion-depth bound
proved in `solveRec_fuel_eq`, so this is the total solve function. -/
def solve (s : BitState) : Answer := solveRec 338 s

/-- The candidate loop of solve_rec at depth 0, which additionally pushes
`(move, plies, win)` onto the UI metric vectors each iteration and swaps
them out on return. -/
def searchLoopTop (recur : BitState → Answer) (s : BitState) :
    List (Nat × Nat) → Int → Nat → List (Nat × Nat × Nat) →
    Answer × List (Nat × Nat × Nat)
  | [], bestLossPlies, bestLossMove, ui =>
      (⟨false, bestLossMove, (if bestLossPlies < 0 then 0 else bestLossPlies.toNat) % 65536⟩, ui)
  | m :: rest, bestLossPlies, bestLossMove, ui =>
      let acc := evalMove recur s m.1
      if acc.allWin then
        let pl := if acc.worstWinPlies = 0 then 1 else acc.worstWinPlies
        (⟨true, m.1, pl % 65536⟩, ui ++ [(m.1, pl, 1)])
      else
        let blft := if acc.bestLossPliesForThis = 1 <<< 29 then 2 else acc.bestLossPliesForThis
        let ui' := ui ++ [(m.1, blft, 0)]
        if (blft : Int) > bestLossPlies then
          searchLoopTop recur s rest (blft : Int) m.1 ui'
        else
          searchLoopTop recur s rest bestLossPlies bestLossMove ui'

/-- `Solver::solve_rec` called at depth 0 (fresh instance): the same search
plus the root metric collection.  A cache hit at the root cannot happen on
a fresh instance, so the body is the depth-0 loop. -/
def solveTopRec (fuel : Nat) (s : BitState) : Answer × List (Nat × Nat × Nat) :=
  match fuel with
  | 0 => (⟨false, 0xFF, 0⟩, [])
  | fuel + 1 =>
      if destinationsOf s = 0 then (⟨false, 0xFF, 0⟩, [])
      else searchLoopTop (fun t => solveRec fuel t) s (orderedMoves s) (-1) 0xFF []

/-- `Solver::compute_root_move_metrics`: score every ordered root move. -/
def computeRootMoveMetrics (recur : BitState → Answer) (s : BitState) :
    List (Nat × Nat × Nat) :=
  if destinationsOf s = 0 then []
  else
    (orderedMoves s).map (fun m =>
      let acc := evalMove recur s m.1
      if acc.allWin then
        (m.1, if acc.worstWinPlies = 0 then 1 else acc.worstWinPlies, 1)
      else
        (m.1, if acc.bestLossPliesForThis = 1 <<< 29 then 2 else acc.bestLossPliesForThis, 0))

/-- `Solver::solve` on a fresh instance with `collect_root_metrics_` set:
run the depth-0 search, then recompute the root metrics only when the
collected list is empty. -/
def solveWithMetrics (s : BitState) : Answer × List (Nat × Nat × Nat) :=
  let anstop := solveTopRec 338 s
  if anstop.2.isEmpty then (anstop.1, computeRootMoveMetrics (fun t => solveRec 337 t) s)
  else anstop

/-- The solver's memo cache `unordered_map<Key64, Answer>`, as an
association list from keys to answers. -/
abbrev Cache := List (Nat × Answer)

/-- `cache_.find(key)`. -/
def cacheLookup (c : Cache) (k : Nat) : Option Answer := List.lookup k c

/-- `cache_.emplace(key, answer)`: keeps the existing entry if present. -/
def cacheInsert (c : Cache) (k : Nat) (a : Answer) : Cache :=
  match List.lookup k c with
  | some _ => c
  | none => (k, a) :: c

/-- The reply loop with the cache threaded through the recursive calls. -/
def scanRepliesC (recur : Cache → BitState → Answer × Cache) (nextState : BitState) :
    List Nat → ReplyAcc × Cache → ReplyAcc × Cache
  | [], accc => accc
  | j :: rest, (acc, c) =>
      let rc := recur c (apply_move nextState (currentPlayerIndex nextState) j)
      let replyAnswer := rc.1
      let acc' :=
        if replyAnswer.win = false then
          { acc with allWin := false,
                     bestLossPliesForThis :=
                       if replyAnswer.plies + 2 < acc.bestLossPliesForThis then
                         replyAnswer.plies + 2
                       else acc.bestLossPliesForThis }
        else
          { acc with worstWinPlies :=
                       if replyAnswer.plies + 2 > acc.worstWinPlies then
                         replyAnswer.plies + 2
                       else acc.worstWinPlies }
      scanRepliesC recur nextState rest (acc', rc.2)

/-- One candidate move evaluated with the cache threaded. -/
def evalMoveC (recur : Cache → BitState → Answer × Cache) (s : BitState) (mv : Nat)
    (c : Cache) : ReplyAcc × Cache :=
  let nextState := apply_move s (currentPlayerIndex s) (move_to mv)
  scanRepliesC recur nextState (bitsOf (destinationsOf nextState)) (⟨true, 0, 1 <<< 29⟩, c)

/-- The candidate loop with the cache threaded. -/
def searchLoopC (recur : Cache → BitState → Answer × Cache) (s : BitState) :
    List (Nat × Nat) → Int → Nat → Cache → Answer × Cache
  | [], bestLossPlies, bestLossMove, c =>
      (⟨false, bestLossMove, (if bestLossPlies < 0 then 0 else bestLossPlies.toNat) % 65536⟩, c)
  | m :: rest, bestLossPlies, bestLossMove, c =>
      let acccache := evalMoveC recur s m.1 c
      let acc := acccache.1
      if acc.allWin then
        let pl := if acc.worstWinPlies = 0 then 1 else acc.worstWinPlies
        (⟨true, m.1, pl % 65536⟩, acccache.2)
      else
        let blft := if acc.bestLossPliesForThis = 1 <<< 29 then 2 else acc.bestLossPliesForThis
        if (blft : Int) > bestLossPlies then
          searchLoopC recur s rest (blft : Int) m.1 acccache.2
        else
          searchLoopC recur s rest bestLossPlies bestLossMove acccache.2

/-- `Solver::solve_rec` with its memo cache explicit: look the key up on
entry and return the hit; otherwise search and `emplace` the answer under
the state's key before returning it. -/
def solveRecC : Nat → Cache → BitState → Answer × Cache
  | 0, c, _ => (⟨false, 0xFF, 0⟩, c)
  | fuel + 1, c, s =>
      let k := hashOf s
      match cacheLookup c k with
      | some a => (a, c)
      | none =>
          if destinationsOf s = 0 then
            (⟨false, 0xFF, 0⟩, cacheInsert c k ⟨false, 0xFF, 0⟩)
          else
            let ansc := searchLoopC (fun c' t => solveRecC fuel c' t) s (orderedMoves s) (-1) 0xFF c
            (ansc.1, cacheInsert ansc.2 k ansc.1)

/-- One `Solver::solve` call on an instance whose cache is `c`. -/
def solveC (c : Cache) (s : BitState) : Answer × Cache := solveRecC 338 c s

/-- The cache an instance holds after solving the given states in order
(no `clear_cache` in between). -/
def runSolves (c : Cache) (l : List BitState) : Cache :=
  l.foldl (fun c' σ => (solveC c' σ).2) c

/-- All two-ply successor states the solver may recurse into from `s`. -/
def childStates (s : BitState) : List BitState :=
  (bitsOf (destinationsOf s)).flatMap (fun d =>
    let nextState := apply_move s (currentPlayerIndex s) d
    (bitsOf (destinationsOf nextState)).map
      (fun j => apply_move nextState (currentPlayerIndex nextState) j))

/-- A state list closed under the solver's two-ply recursion. -/
def ClosedUnder (V : List BitState) : Prop :=
  ∀ σ ∈ V, ∀ τ ∈ childStates σ, τ ∈ V

/-- No two states of `V` with equal `hash_state` keys but different
answers: the condition under which the hash-keyed cache is harmless. -/
def NoAlias (V : List BitState) : Prop :=
  ∀ σ₁ ∈ V, ∀ σ₂ ∈ V, hashOf σ₁ = hashOf σ₂ → solve σ₁ = solve σ₂

/-- Every cache entry is the answer of some state of `V` under its key. -/
def CacheConsistent (V : List BitState) (c : Cache) : Prop :=
  ∀ k a, cacheLookup c k = some a → ∃ σ ∈ V, hashOf σ = k ∧ solve σ = a

instance (V : List BitState) : Decidable (ClosedUnder V) := by
  unfold ClosedUnder; infer_instance

instance (V : List BitState) : Decidable (NoAlias V) := by
  unfold NoAlias; infer_instance

/-- Modelled from the spec (compared against the solver for claim C2): a
reference minimax solver that applies no move ordering, never
short-circuits, and fully scores every move; per-move scoring is the
spec's (max reply plies + 2 when winning, min losing-reply plies + 2 when
losing); `best_move` is not modelled (the claim compares win and plies). -/
def refMoveScore (recur : BitState → Answer) (s : BitState) (d : Nat) : Bool × Nat :=
  let nextState := apply_move s (currentPlayerIndex s) d
  let acc := scanReplies recur nextState (bitsOf (destinationsOf nextState)) ⟨true, 0, 1 <<< 29⟩
  if acc.allWin then (true, if acc.worstWinPlies = 0 then 1 else acc.worstWinPlies)
  else (false, if acc.bestLossPliesForThis = 1 <<< 29 then 2 else acc.bestLossPliesForThis)

/-- Modelled from the spec: the reference solver's recursion (see
`refMoveScore`); winning plies are the minimum over winning moves
(distance to mate), losing plies the maximum over all moves (maximum
survival). -/
def refRec : Nat → BitState → Answer
  | 0, _ => ⟨false, 0xFF, 0⟩
  | fuel + 1, s =>
      if destinationsOf s = 0 then ⟨false, 0xFF, 0⟩
      else
        let scores := (bitsOf (destinationsOf s)).map
          (fun d => refMoveScore (fun t => refRec fuel t) s d)
        let winPlies := (scores.filter (fun e => e.1)).map (fun e => e.2)
        if winPlies = [] then ⟨false, 0xFF, (scores.map (fun e => e.2)).foldl Nat.max 0⟩
        else ⟨true, 0xFF, winPlies.foldl Nat.min (1 <<< 29)⟩

/-- The reference solver at the same fuel as `solve`. -/
def refSolve (s : BitState) : Answer := refRec 338 s

/-! Termination measure.  Each ply collapses the mover's cell; the measure
below strictly decreases at every ply for every 16-bit state, degenerate
ones included (mover already on a collapsed cell, empty position board). -/

/-- The low 16 bits of a mask as a finite set. -/
def toFS (m : Nat) : Finset (Fin 16) :=
  Finset.univ.filter (fun i => m.testBit i.val)

/-- Popcount of the low 16 bits, via `toFS`. -/
def cnt (m : Nat) : Nat := (toFS m).card

/-- Indicator of an empty position board. -/
def zeroB (b : Nat) : Nat := if b = 0 then 1 else 0

/-- Strictly decreases at every ply: collapsed-growth dominates, corrected
by the mover's collapsed overlap and empty-board indicators. -/
def measure2 (s : BitState) : Nat :=
  40 * (16 - cnt s.bbCollapsed) + cnt (s.bbX &&& s.bbCollapsed) +
    cnt (s.bbO &&& s.bbCollapsed) + zeroB s.bbX + zeroB s.bbO

/-! Batch health metrics of solve_norm_db.cpp. -/

/-- A 16-byte solved record, `struct Record` of solve_norm_db.cpp
(padding omitted). -/
structure Record where
  key : Nat
  turn : Nat
  win : Nat
  best : Nat
  plies : Nat
deriving DecidableEq, Repr

/-- `struct BatchMetrics` of solve_norm_db.cpp. -/
structure BatchMetrics where
  count : Nat
  zero_keys : Nat
  bad_move : Nat
  plies_anom : Nat
  wins1 : Nat
  wins0 : Nat
  turn0 : Nat
  turn1 : Nat
  plies_sum : Nat
  min_plies : Nat
  max_plies : Nat
deriving DecidableEq, Repr

/-- `best_ok` of solve_norm_db.cpp. -/
def best_ok (b : Nat) : Bool :=
  if b = 0xFF then true
  else decide ((b >>> 4) &&& 0x0F < 16) && decide (b &&& 0x0F < 16)

/-- The loop body of `analyze_batch`.  `r.plies < 0` on the unsigned field
is the source's defensive dead test. -/
def analyze_step (m : BatchMetrics) (r : Record) : BatchMetrics :=
  { m with
    zero_keys := if r.key = 0 then m.zero_keys + 1 else m.zero_keys,
    bad_move := if best_ok r.best = false then m.bad_move + 1 else m.bad_move,
    plies_anom := m.plies_anom + (if ¬ r.plies ≤ 50 then 1 else 0) +
      (if r.win = 1 ∧ r.plies < 1 then 1 else 0) +
      (if r.win = 0 ∧ r.plies < 0 then 1 else 0),
    turn0 := if r.turn = 0 then m.turn0 + 1 else m.turn0,
    turn1 := if r.turn ≠ 0 ∧ r.turn = 1 then m.turn1 + 1 else m.turn1,
    wins1 := if r.win = 1 then m.wins1 + 1 else m.wins1,
    wins0 := if r.win ≠ 1 ∧ r.win = 0 then m.wins0 + 1 else m.wins0,
    plies_sum := m.plies_sum + r.plies,
    min_plies := if r.plies < m.min_plies then r.plies else m.min_plies,
    max_plies := if r.plies > m.max_plies then r.plies else m.max_plies }

/-- `analyze_batch` of solve_norm_db.cpp. -/
def analyze_batch (v : List Record) : BatchMetrics :=
  let m := v.foldl analyze_step ⟨v.length, 0, 0, 0, 0, 0, 0, 0, 0, 65535, 0⟩
  if v.length = 0 then { m with min_plies := 0, max_plies := 0 } else m

/-- The win-rate drift of a flush: batch win-rate minus cumulative
baseline, as computed at the flush sites of solve_norm_db.cpp `main`
(`double` arithmetic modelled as exact rationals). -/
def win_drift (v : List Record) (prior cumWins1 : Nat) : ℚ :=
  let bm := analyze_batch v
  let baseline_win : ℚ := if prior > 0 then (cumWins1 : ℚ) / (prior : ℚ) else -1
  let batch_win : ℚ := if bm.count > 0 then (bm.wins1 : ℚ) / (bm.count : ℚ) else 0
  if baseline_win ≥ 0 then |batch_win - baseline_win| else 0

/-- The ANOMALY flag computed at each flush site of solve_norm_db.cpp. -/
def flush_anomaly (v : List Record) (prior cumWins1 : Nat) : Bool :=
  let bm := analyze_batch v
  decide (bm.zero_keys > 0) || decide (bm.bad_move > 0) || decide (bm.plies_anom > 0) ||
    (decide (prior ≥ 10000) && decide (win_drift v prior cumWins1 > 1 / 5))

/-- The anomaly condition exactly as claim C7 words it: a zero key, an
illegal best encoding (not 0xFF and a nibble out of range), plies > 50, or
drift above 0.2 after a 10000-record warmup. -/
def claimC7Anomaly (v : List Record) (prior cumWins1 : Nat) : Prop :=
  (∃ r ∈ v, r.key = 0) ∨
  (∃ r ∈ v, r.best ≠ 0xFF ∧ (16 ≤ (r.best >>> 4) &&& 0xF ∨ 16 ≤ r.best &&& 0xF)) ∨
  (∃ r ∈ v, 50 < r.plies) ∨
  (10000 ≤ prior ∧ win_drift v prior cumWins1 > 1 / 5)

instance (v : List Record) (prior cumWins1 : Nat) :
    Decidable (claimC7Anomaly v prior cumWins1) := by
  unfold claimC7Anomaly; infer_instance

/-! CLI state argument parsing, cli.cpp. -/

/-- Hex digit characters, lowercase as rendered. -/
def HEX_CHARS : List Char := "0123456789abcdef".toList

/-- Digit for a value below 16. -/
def hexChar (d : Nat) : Char := HEX_CHARS.getD d '0'

/-- Value of a hex digit character, upper or lower case. -/
def hexVal (c : Char) : Option Nat :=
  if '0' ≤ c ∧ c ≤ '9' then some (c.toNat - '0'.toNat)
  else if 'a' ≤ c ∧ c ≤ 'f' then some (c.toNat - 'a'.toNat + 10)
  else if 'A' ≤ c ∧ c ≤ 'F' then some (c.toNat - 'A'.toNat + 10)
  else none

/-- `parse_hex16` of cli.cpp: `std::stoul(text, &end, 16)` consumes the
maximal hex-digit prefix (prefix forms such as `0x`, signs and leading
whitespace never occur in the state-argument fields exercised here);
success requires full consumption and a value of at most 0xFFFF. -/
def parse_hex16 (text : List Char) : Option Nat :=
  let pre := text.takeWhile (fun c => (hexVal c).isSome)
  if pre.length = 0 then none
  else
    let v := pre.foldl (fun acc c => acc * 16 + (hexVal c).getD 0) 0
    if pre.length = text.length ∧ v ≤ 0xFFFF then some v else none

/-- The manual comma split of `parse_state_arg`: every comma ends a part,
and the final part ends at the end of the string (so empty parts are
kept). -/
def splitCommas : List Char → List (List Char)
  | [] => [[]]
  | c :: rest =>
      let r := splitCommas rest
      if c = ',' then [] :: r
      else (c :: r.headI) :: r.tail

/-- `parse_state_arg` of cli.cpp: split on commas, require 8 parts, parse
each as hex16, and mask the turn to one bit. -/
def parse_state_arg (arg : List Char) : Option BitState :=
  match splitCommas arg with
  | [pa, p2, p3, p4, px, po, pc, pt] =>
      (parse_hex16 pa).bind fun aMask =>
      (parse_hex16 p2).bind fun twoMask =>
      (parse_hex16 p3).bind fun threeMask =>
      (parse_hex16 p4).bind fun fourMask =>
      (parse_hex16 px).bind fun xMask =>
      (parse_hex16 po).bind fun oMask =>
      (parse_hex16 pc).bind fun collapsedMask =>
      (parse_hex16 pt).bind fun turnValue =>
      some ⟨aMask, twoMask, threeMask, fourMask, xMask, oMask, collapsedMask, turnValue &&& 1⟩
  | _ => none

/-- Four fixed hex digits of a 16-bit value, most significant first. -/
def hex4 (n : Nat) : List Char :=
  [hexChar (n / 4096 % 16), hexChar (n / 256 % 16), hexChar (n / 16 % 16), hexChar (n % 16)]

/-- Render a state in the `a,2,3,4,x,o,c,turn` hex format of spec 6.5. -/
def renderStateArg (s : BitState) : List Char :=
  List.intercalate [','] [hex4 s.bbA, hex4 s.bb2, hex4 s.bb3, hex4 s.bb4,
    hex4 s.bbX, hex4 s.bbO, hex4 s.bbCollapsed, hex4 s.turn]

/-- Field bounds for the round trip: the seven masks are `uint16_t` and
the turn is one bit. -/
def WfFields (s : BitState) : Prop :=
  s.bbA < 65536 ∧ s.bb2 < 65536 ∧ s.bb3 < 65536 ∧ s.bb4 < 65536 ∧
  s.bbX < 65536 ∧ s.bbO < 65536 ∧ s.bbCollapsed < 65536 ∧ s.turn < 2

instance (s : BitState) : Decidable (WfFields s) := by unfold WfFields; infer_instance

/-! Concrete states used by counterexamples and witnesses. -/

/-- Spec scenario S1: all cards A, X at cell 0, O at cell 5, nothing
collapsed. -/
def exS1 : BitState := ⟨0xFFFF, 0, 0, 0, 1, 32, 0, 0⟩

/-- Spec scenario S3: every neighbor of X's cell collapsed, a terminal
loss. -/
def exTerm : BitState := ⟨0xFFFF, 0, 0, 0, 1, 32, 4122, 0⟩

/-- A position where the first winning move in heuristic order wins in 3
plies but a later move wins in 1. -/
def c2State : BitState := ⟨89, 4992, 43012, 17442, 4, 32768, 32752, 0⟩

/-- A position with two legal root moves whose first ordered move wins, so
the depth-0 search short-circuits with a partial metric list. -/
def c3State : BitState := ⟨808, 10260, 49282, 5185, 4, 256, 65138, 0⟩

/-- A degenerate position with X standing on a collapsed cell. -/
def c5State : BitState := ⟨1, 0, 0, 0, 1, 4, 1, 0⟩

/-- First state of a `hash_state` collision pair (found offline by a
meet-in-the-middle search on the Szudzik fold): X wins in 1 ply. -/
def c8State1 : BitState := ⟨573, 56127, 65535, 0, 1, 4, 65528, 0⟩

/-- Second state of the collision pair: same key as `c8State1` but a
terminal loss. -/
def c8State2 : BitState := ⟨38294, 18977, 16296, 0, 1, 4, 65528, 0⟩

/-- A degenerate position with both players on collapsed cells: two legal
plies leave the collapsed mask unchanged. -/
def c10State : BitState := ⟨0xFFFF, 0, 0, 0, 1, 4, 5, 0⟩

/-- A record with `win = 1` and `plies = 0` but no zero key, a legal best
encoding and small plies. -/
def c7Rec : Record := ⟨1, 0, 1, 1, 0⟩

/-! Basic facts about single-bit masks. -/

theorem bit_eq_two_pow (i : Nat) : bit i = 2 ^ i := by
  simp [bit, Nat.shiftLeft_eq]

theorem testBit_bit (i j : Nat) : (bit i).testBit j = decide (i = j) := by
  rw [bit_eq_two_pow]
  rcases eq_or_ne i j with rfl | h
  · rw [Nat.testBit_two_pow_self]
    simp
  · rw [Nat.testBit_two_pow_of_ne h]
    simp [h]

theorem and_bit_ne_zero_iff (m n : Nat) : m &&& bit n ≠ 0 ↔ m.testBit n = true := by
  rw [bit_eq_two_pow, Nat.and_two_pow]
  cases h : m.testBit n <;> simp [h]

theorem and_bit_bne (m n : Nat) : (m &&& bit n != 0) = m.testBit n := by
  cases h : m.testBit n
  · have h0 : m &&& bit n = 0 := by
      by_contra hne
      exact absurd ((and_bit_ne_zero_iff m n).mp hne) (by simp [h])
    simp [h0]
  · have h0 := (and_bit_ne_zero_iff m n).mpr h
    simp [bne_iff_ne, h0]

theorem mem_bitsOf {m d : Nat} : d ∈ bitsOf m ↔ d < 16 ∧ m.testBit d = true := by
  simp [bitsOf, List.mem_filter, List.mem_range, and_bit_bne]

theorem bitsOf_eq_nil_iff {m : Nat} (hm : m < 65536) : bitsOf m = [] ↔ m = 0 := by
  constructor
  · intro h
    refine Nat.eq_of_testBit_eq fun i => ?_
    rcases lt_or_ge i 16 with hi | hi
    · by_contra hne
      have hmem : i ∈ bitsOf m := mem_bitsOf.mpr ⟨hi, by simpa using hne⟩
      simp [h] at hmem
    · have h2 : (65536 : ℕ) ≤ 2 ^ i := by
        calc (65536 : ℕ) = 2 ^ 16 := by norm_num
        _ ≤ 2 ^ i := Nat.pow_le_pow_right (by norm_num) hi
      simp [Nat.testBit_eq_false_of_lt (lt_of_lt_of_le hm h2)]
  · intro h
    subst h
    simp [bitsOf, and_bit_bne]

theorem testBit_lt_16 {m d : Nat} (hm : m < 65536) (h : m.testBit d = true) : d < 16 := by
  by_contra hge
  have h2 : (65536 : ℕ) ≤ 2 ^ d := by
    calc (65536 : ℕ) = 2 ^ 16 := by norm_num
    _ ≤ 2 ^ d := Nat.pow_le_pow_right (by norm_num) (le_of_not_lt hge)
  simp [Nat.testBit_eq_false_of_lt (lt_of_lt_of_le hm h2)] at h

theorem neiUp_lt (i : Nat) : neiUp i < 16 := by
  rcases lt_or_ge i 16 with h | h
  · interval_cases i <;> decide
  · rw [neiUp, List.getD_eq_default _ _ (by simpa [NEI_UP] using h)]; norm_num

theorem neiDown_lt (i : Nat) : neiDown i < 16 := by
  rcases lt_or_ge i 16 with h | h
  · interval_cases i <;> decide
  · rw [neiDown, List.getD_eq_default _ _ (by simpa [NEI_DOWN] using h)]; norm_num

theorem neiLeft_lt (i : Nat) : neiLeft i < 16 := by
  rcases lt_or_ge i 16 with h | h
  · interval_cases i <;> decide
  · rw [neiLeft, List.getD_eq_default _ _ (by simpa [NEI_LEFT] using h)]; norm_num

theorem neiRight_lt (i : Nat) : neiRight i < 16 := by
  rcases lt_or_ge i 16 with h | h
  · interval_cases i <;> decide
  · rw [neiRight, List.getD_eq_default _ _ (by simpa [NEI_RIGHT] using h)]; norm_num

theorem mem_neighborsOf_iff {i n : Nat} :
    n ∈ neighborsOf i ↔ n = neiUp i ∨ n = neiDown i ∨ n = neiLeft i ∨ n = neiRight i := by
  simp [neighborsOf]

theorem mem_neighborsOf_lt {i n : Nat} (h : n ∈ neighborsOf i) : n < 16 := by
  rcases mem_neighborsOf_iff.mp h with rfl | rfl | rfl | rfl
  · exact neiUp_lt i
  · exact neiDown_lt i
  · exact neiLeft_lt i
  · exact neiRight_lt i

theorem getLastD_cons (a d : Nat) (l : List Nat) : (a :: l).getLastD d = l.getLastD a := by
  cases l <;> simp [List.getLastD]

/-- The DFS of bitboard.cpp computes exactly the set of endpoints of
self-avoiding paths of the given length that avoid the blocked mask and
the already-visited mask and do not end on the start or opponent cell. -/
theorem dfs_paths_spec (startIndex opponentIndex blockedMask : Nat) :
    ∀ r currentIndex visitedMask d,
    ((dfs_paths startIndex opponentIndex blockedMask r currentIndex visitedMask).testBit d
      = true) ↔
    ∃ p : List Nat, p.length = r ∧ List.Chain adjacentStep currentIndex p ∧
      (∀ c ∈ p, blockedMask.testBit c = false) ∧ (∀ c ∈ p, visitedMask.testBit c = false) ∧
      p.Nodup ∧ p.getLastD currentIndex = d ∧ d ≠ startIndex ∧ d ≠ opponentIndex := by
  intro r
  induction r with
  | zero =>
    intro cur vis d
    simp only [dfs_paths]
    by_cases hc : cur ≠ startIndex ∧ cur ≠ opponentIndex
    · rw [if_pos hc, testBit_bit]
      constructor
      · intro h
        have hcd : cur = d := by simpa using h
        subst hcd
        exact ⟨[], rfl, List.Chain.nil, by simp, by simp, List.nodup_nil, rfl, hc.1, hc.2⟩
      · rintro ⟨p, hlen, -, -, -, -, hlast, -, -⟩
        have hp : p = [] := List.length_eq_zero.mp hlen
        subst hp
        simp only [List.getLastD] at hlast
        simp [hlast]
    · rw [if_neg hc]
      simp only [Nat.zero_testBit, Bool.false_eq_true, false_iff]
      rintro ⟨p, hlen, -, -, -, -, hlast, hds, hdo⟩
      have hp : p = [] := List.length_eq_zero.mp hlen
      subst hp
      simp only [List.getLastD] at hlast
      exact hc ⟨hlast ▸ hds, hlast ▸ hdo⟩
  | succ r ih =>
    intro cur vis d
    have hstep : ∀ n : Nat,
        ((if blockedMask &&& bit n ≠ 0 then 0
          else if vis &&& bit n ≠ 0 then 0
          else dfs_paths startIndex opponentIndex blockedMask r n (vis ||| bit n)).testBit d
          = true) ↔
        (blockedMask.testBit n = false ∧ vis.testBit n = false ∧
          ∃ p : List Nat, p.length = r ∧ List.Chain adjacentStep n p ∧
            (∀ c ∈ p, blockedMask.testBit c = false) ∧
            (∀ c ∈ p, (vis ||| bit n).testBit c = false) ∧
            p.Nodup ∧ p.getLastD n = d ∧ d ≠ startIndex ∧ d ≠ opponentIndex) := by
      intro n
      by_cases hb : blockedMask &&& bit n ≠ 0
      · rw [if_pos hb]
        simp [Nat.zero_testBit, (and_bit_ne_zero_iff _ _).mp hb]
      · rw [if_neg hb]
        have hbf : blockedMask.testBit n = false := by
          cases h : blockedMask.testBit n
          · rfl
          · exact absurd ((and_bit_ne_zero_iff _ _).mpr h) hb
        by_cases hv : vis &&& bit n ≠ 0
        · rw [if_pos hv]
          simp [Nat.zero_testBit, (and_bit_ne_zero_iff _ _).mp hv]
        · rw [if_neg hv]
          have hvf : vis.testBit n = false := by
            cases h : vis.testBit n
            · rfl
            · exact absurd ((and_bit_ne_zero_iff _ _).mpr h) hv
          rw [ih n (vis ||| bit n) d]
          simp [hbf, hvf]
    have hsplit :
        ((dfs_paths startIndex opponentIndex blockedMask (r + 1) cur vis).testBit d = true) ↔
        ∃ n, (n = neiUp cur ∨ n = neiDown cur ∨ n = neiLeft cur ∨ n = neiRight cur) ∧
          ((if blockedMask &&& bit n ≠ 0 then 0
            else if vis &&& bit n ≠ 0 then 0
            else dfs_paths startIndex opponentIndex blockedMask r n (vis ||| bit n)).testBit d
            = true) := by
      simp only [dfs_paths, Nat.testBit_or, Bool.or_eq_true]
      constructor
      · rintro (((h | h) | h) | h)
        · exact ⟨neiUp cur, Or.inl rfl, h⟩
        · exact ⟨neiDown cur, Or.inr (Or.inl rfl), h⟩
        · exact ⟨neiLeft cur, Or.inr (Or.inr (Or.inl rfl)), h⟩
        · exact ⟨neiRight cur, Or.inr (Or.inr (Or.inr rfl)), h⟩
      · rintro ⟨n, (rfl | rfl | rfl | rfl), h⟩
        · exact Or.inl (Or.inl (Or.inl h))
        · exact Or.inl (Or.inl (Or.inr h))
        · exact Or.inl (Or.inr h)
        · exact Or.inr h
    rw [hsplit]
    constructor
    · rintro ⟨n, hmem4, h⟩
      obtain ⟨hbf, hvf, p', hlen, hchain, hpb, hpv, hnd, hlast, hds, hdo⟩ := (hstep n).mp h
      have hmem : n ∈ neighborsOf cur := by
        rcases hmem4 with rfl | rfl | rfl | rfl <;> simp [neighborsOf]
      refine ⟨n :: p', by simp [hlen], List.chain_cons.mpr ⟨hmem, hchain⟩, ?_, ?_, ?_, ?_,
        hds, hdo⟩
      · intro c hc
        rcases List.mem_cons.mp hc with rfl | hc'
        · exact hbf
        · exact hpb c hc'
      · intro c hc
        rcases List.mem_cons.mp hc with rfl | hc'
        · exact hvf
        · have := hpv c hc'
          rw [Nat.testBit_or] at this
          exact (Bool.or_eq_false_iff.mp this).1
      · refine List.nodup_cons.mpr ⟨?_, hnd⟩
        intro hnp
        have := hpv n hnp
        rw [Nat.testBit_or, testBit_bit] at this
        simp at this
      · rw [getLastD_cons]
        exact hlast
    · rintro ⟨p, hlen, hchain, hblocked, hvisited, hnodup, hlast, hds, hdo⟩
      cases p with
      | nil => simp at hlen
      | cons n p' =>
        obtain ⟨hmem, hchain'⟩ := List.chain_cons.mp hchain
        have hnd := List.nodup_cons.mp hnodup
        have hpv : ∀ c ∈ p', (vis ||| bit n).testBit c = false := by
          intro c hc
          rw [Nat.testBit_or, testBit_bit]
          have h1 : vis.testBit c = false := hvisited c (by simp [hc])
          have h2 : n ≠ c := fun hnc => hnd.1 (hnc ▸ hc)
          simp [h1, h2]
        have h := (hstep n).mpr ⟨hvisited n (by simp) ▸ hblocked n (by simp),
          hvisited n (by simp), p', by simpa using hlen, hchain',
          fun c hc => hblocked c (by simp [hc]), hpv, hnd.2,
          by rw [getLastD_cons] at hlast; exact hlast, hds, hdo⟩
        exact ⟨n, mem_neighborsOf_iff.mp hmem, h⟩

theorem getLastD_mem {l : List Nat} (a : Nat) (h : l ≠ []) : l.getLastD a ∈ l := by
  induction l generalizing a with
  | nil => exact absurd rfl h
  | cons x xs ihl =>
    rw [getLastD_cons]
    cases hxs : xs with
    | nil => simp [List.getLastD]
    | cons y ys =>
      have hm := ihl x (by simp [hxs])
      rw [hxs] at hm
      exact List.mem_cons_of_mem x hm

/-- Path characterization of `enumerate_destinations`: the visited mask
starts as the start cell's bit, so paths are self-avoiding including the
start. -/
theorem enumerate_destinations_spec (s : BitState)
    (startIndex stepCount opponentIndex d : Nat) :
    ((enumerate_destinations s startIndex stepCount opponentIndex).testBit d = true) ↔
    ∃ p : List Nat, p.length = stepCount ∧ List.Chain adjacentStep startIndex p ∧
      (∀ c ∈ p, s.bbCollapsed.testBit c = false) ∧ (startIndex :: p).Nodup ∧
      p.getLastD startIndex = d ∧ d ≠ startIndex ∧ d ≠ opponentIndex := by
  rw [enumerate_destinations, dfs_paths_spec]
  constructor
  · rintro ⟨p, hlen, hchain, hpb, hpv, hnd, hlast, hds, hdo⟩
    refine ⟨p, hlen, hchain, hpb, List.nodup_cons.mpr ⟨?_, hnd⟩, hlast, hds, hdo⟩
    intro hsp
    have := hpv startIndex hsp
    rw [testBit_bit] at this
    simp at this
  · rintro ⟨p, hlen, hchain, hpb, hnd, hlast, hds, hdo⟩
    have hnd' := List.nodup_cons.mp hnd
    refine ⟨p, hlen, hchain, hpb, ?_, hnd'.2, hlast, hds, hdo⟩
    intro c hc
    rw [testBit_bit]
    have : startIndex ≠ c := fun hsc => hnd'.1 (hsc ▸ hc)
    simp [this]

/-- Destinations are never collapsed cells and never the start or the
opponent cell. -/
theorem enumerate_destinations_excludes (s : BitState)
    (startIndex stepCount opponentIndex d : Nat)
    (h : (enumerate_destinations s startIndex stepCount opponentIndex).testBit d = true) :
    s.bbCollapsed.testBit d = false ∧ d ≠ startIndex ∧ d ≠ opponentIndex := by
  obtain ⟨p, hlen, hchain, hpb, hnd, hlast, hds, hdo⟩ :=
    (enumerate_destinations_spec s startIndex stepCount opponentIndex d).mp h
  refine ⟨?_, hds, hdo⟩
  cases hp : p with
  | nil =>
    subst hp
    simp only [List.getLastD] at hlast
    exact absurd hlast.symm hds
  | cons x xs =>
    have hdp : d ∈ p := by
      rw [← hlast]
      exact getLastD_mem startIndex (by simp [hp])
    exact hpb d hdp

theorem chain_mem_lt : ∀ {a : Nat} {l : List Nat}, List.Chain adjacentStep a l →
    ∀ c ∈ l, c < 16 := by
  intro a l
  induction l generalizing a with
  | nil => intro _ c hc; simp at hc
  | cons b bs ihl =>
    intro hchain c hc
    obtain ⟨hab, hchain'⟩ := List.chain_cons.mp hchain
    rcases List.mem_cons.mp hc with rfl | hc'
    · exact mem_neighborsOf_lt hab
    · exact ihl hchain' c hc'

/-- Destination cells lie below 16. -/
theorem enumerate_destinations_cell_lt (s : BitState)
    (startIndex stepCount opponentIndex d : Nat)
    (h : (enumerate_destinations s startIndex stepCount opponentIndex).testBit d = true) :
    d < 16 := by
  obtain ⟨p, hlen, hchain, hpb, hnd, hlast, hds, hdo⟩ :=
    (enumerate_destinations_spec s startIndex stepCount opponentIndex d).mp h
  cases hp : p with
  | nil =>
    subst hp
    simp only [List.getLastD] at hlast
    exact absurd hlast.symm hds
  | cons x xs =>
    have hdp : d ∈ p := by
      rw [← hlast]
      exact getLastD_mem startIndex (by simp [hp])
    exact chain_mem_lt hchain d hdp

/-- The destination mask fits in 16 bits when the start cell does. -/
theorem dfs_paths_lt (startIndex opponentIndex blockedMask : Nat) :
    ∀ r currentIndex visitedMask, currentIndex < 16 →
    dfs_paths startIndex opponentIndex blockedMask r currentIndex visitedMask < 65536 := by
  intro r
  induction r with
  | zero =>
    intro cur vis hcur
    simp only [dfs_paths]
    split
    · calc bit cur = 2 ^ cur := bit_eq_two_pow cur
      _ ≤ 2 ^ 15 := Nat.pow_le_pow_right (by norm_num) (by omega)
      _ < 65536 := by norm_num
    · norm_num
  | succ r ih =>
    intro cur vis hcur
    simp only [dfs_paths]
    have hstep : ∀ n : Nat, n < 16 →
        (if blockedMask &&& bit n ≠ 0 then 0
         else if vis &&& bit n ≠ 0 then 0
         else dfs_paths startIndex opponentIndex blockedMask r n (vis ||| bit n)) < 2 ^ 16 := by
      intro n hn
      split
      · norm_num
      · split
        · norm_num
        · exact lt_of_lt_of_le (ih n (vis ||| bit n) hn) (le_of_eq (by norm_num))
    refine lt_of_lt_of_le ?_ (le_of_eq (by norm_num : (2 : ℕ) ^ 16 = 65536))
    exact Nat.or_lt_two_pow
      (Nat.or_lt_two_pow
        (Nat.or_lt_two_pow (hstep _ (neiUp_lt cur)) (hstep _ (neiDown_lt cur)))
        (hstep _ (neiLeft_lt cur)))
      (hstep _ (neiRight_lt cur))

/-- C4: `enumerate_destinations` returns exactly the set of cells
reachable from the start by a path of exactly `stepCount` orthogonal
single steps on the torus that never repeats a visited cell (start
included), never enters a collapsed cell, and ends neither on the start
nor on the opponent's cell; the opponent's cell is not excluded from the
path's interior.  Consequently the returned mask never contains the
start, the opponent's cell, or any collapsed cell. -/
theorem c4_enumerate_destinations (s : BitState) (startCell stepCount oppCell d : Nat) :
    (((enumerate_destinations s startCell stepCount oppCell).testBit d = true) ↔
      ∃ p : List Nat, p.length = stepCount ∧ List.Chain adjacentStep startCell p ∧
        (∀ c ∈ p, s.bbCollapsed.testBit c = false) ∧ (startCell :: p).Nodup ∧
        p.getLastD startCell = d ∧ d ≠ startCell ∧ d ≠ oppCell) ∧
    (((enumerate_destinations s startCell stepCount oppCell).testBit d = true) →
      s.bbCollapsed.testBit d = false ∧ d ≠ startCell ∧ d ≠ oppCell) :=
  ⟨enumerate_destinations_spec s startCell stepCount oppCell d,
   enumerate_destinations_excludes s startCell stepCount oppCell d⟩

/-- Witness for C4 at spec scenario S1: cell 1 is a legal destination of a
1-step move from cell 0, so a 1-step path to it exists. -/
theorem c4_enumerate_destinations_witness :
    ((enumerate_destinations exS1 0 1 5).testBit 1 = true) ∧
    ∃ p : List Nat, p.length = 1 ∧ List.Chain adjacentStep 0 p ∧
      (∀ c ∈ p, exS1.bbCollapsed.testBit c = false) ∧ ((0 : Nat) :: p).Nodup ∧
      p.getLastD 0 = 1 ∧ (1 : Nat) ≠ 0 ∧ (1 : Nat) ≠ 5 :=
  ⟨by decide, (c4_enumerate_destinations exS1 0 1 5 1).1.mp (by decide)⟩

/-! Facts about the solver's move enumeration. -/

theorem piece_idx_lt (b : Nat) : piece_idx b < 16 := by
  unfold piece_idx
  cases hf : (List.range 16).find? (fun i => b &&& bit i != 0) with
  | none => simp
  | some i =>
    have hm := List.mem_of_find?_eq_some hf
    simp only [List.mem_range] at hm
    simpa using hm

theorem piece_idx_testBit {b : Nat} (hb : b < 65536) (h0 : b ≠ 0) :
    b.testBit (piece_idx b) = true := by
  have hex : ∃ i ∈ List.range 16, (b &&& bit i != 0) = true := by
    have hsome : ∃ i, b.testBit i = true := by
      by_contra hno
      push_neg at hno
      exact h0 (Nat.zero_of_testBit_eq_false (fun i => by
        cases h : b.testBit i
        · rfl
        · exact absurd h (hno i)))
    obtain ⟨i, hi⟩ := hsome
    exact ⟨i, List.mem_range.mpr (testBit_lt_16 hb hi), by rw [and_bit_bne]; exact hi⟩
  obtain ⟨j, hj⟩ := Option.isSome_iff_exists.mp (List.find?_isSome.mpr hex)
  have hpj : (b &&& bit j != 0) = true := by simpa using List.find?_some hj
  unfold piece_idx
  rw [hj]
  simp only [Option.getD_some]
  rw [← and_bit_bne]
  exact hpj

theorem currentPlayerIndex_lt (s : BitState) : currentPlayerIndex s < 16 := by
  unfold currentPlayerIndex
  split <;> exact piece_idx_lt _

theorem destinationsOf_lt (s : BitState) : destinationsOf s < 65536 := by
  unfold destinationsOf enumerate_destinations
  exact dfs_paths_lt _ _ _ _ _ _ (currentPlayerIndex_lt s)

theorem mem_bitsOf_destinationsOf {s : BitState} {d : Nat} :
    d ∈ bitsOf (destinationsOf s) ↔ (destinationsOf s).testBit d = true := by
  rw [mem_bitsOf]
  exact ⟨And.right, fun h => ⟨testBit_lt_16 (destinationsOf_lt s) h, h⟩⟩

theorem dest_mem_facts {s : BitState} {d : Nat} (h : d ∈ bitsOf (destinationsOf s)) :
    d < 16 ∧ s.bbCollapsed.testBit d = false ∧ d ≠ currentPlayerIndex s := by
  have ht := mem_bitsOf_destinationsOf.mp h
  have hx := enumerate_destinations_excludes s _ _ _ d ht
  exact ⟨(mem_bitsOf.mp h).1, hx.1, hx.2.1⟩

/-! The termination measure strictly decreases at every ply. -/

theorem mem_toFS {m : Nat} {i : Fin 16} : i ∈ toFS m ↔ m.testBit i.val = true := by
  simp [toFS]

theorem toFS_or (m n : Nat) : toFS (m ||| n) = toFS m ∪ toFS n := by
  ext i
  simp [mem_toFS, Nat.testBit_or, Finset.mem_union]

theorem toFS_and (m n : Nat) : toFS (m &&& n) = toFS m ∩ toFS n := by
  ext i
  simp [mem_toFS, Nat.testBit_and, Finset.mem_inter]

theorem toFS_bit {k : Nat} (hk : k < 16) : toFS (bit k) = {⟨k, hk⟩} := by
  ext i
  simp only [mem_toFS, testBit_bit, Finset.mem_singleton, decide_eq_true_eq]
  constructor
  · intro h
    exact Fin.ext h.symm
  · intro h
    subst h
    rfl

theorem toFS_zero : toFS 0 = ∅ := by
  ext i
  simp [mem_toFS]

theorem testBit_65535 : ∀ j, j < 16 → (65535 : Nat).testBit j = true := by decide

theorem toFS_mask_compl {k : Nat} (hk : k < 16) :
    toFS (65535 ^^^ bit k) = Finset.univ.erase ⟨k, hk⟩ := by
  ext i
  simp only [mem_toFS, Nat.testBit_xor, testBit_bit, Finset.mem_erase, Finset.mem_univ,
    and_true]
  rw [testBit_65535 i.val i.isLt]
  cases hki : decide (k = i.val)
  · simp only [Bool.xor_false]
    simp only [decide_eq_false_iff_not] at hki
    constructor
    · intro _
      exact fun he => hki (by rw [he])
    · intro _
      trivial
  · simp only [Bool.xor_true]
    simp only [decide_eq_true_eq] at hki
    subst hki
    simp

theorem toFS_clear {m k : Nat} (hk : k < 16) :
    toFS (m &&& (65535 ^^^ bit k)) = (toFS m).erase ⟨k, hk⟩ := by
  rw [toFS_and, toFS_mask_compl hk]
  ext i
  simp only [Finset.mem_inter, Finset.mem_erase, Finset.mem_univ, and_true]
  tauto

theorem cnt_le_16 (m : Nat) : cnt m ≤ 16 := by
  have := Finset.card_le_univ (toFS m)
  simpa [cnt] using this

theorem zeroB_le_one (b : Nat) : zeroB b ≤ 1 := by
  unfold zeroB
  split <;> omega

theorem ne_zero_of_testBit {m i : Nat} (h : m.testBit i = true) : m ≠ 0 := by
  intro h0
  subst h0
  simp [Nat.zero_testBit] at h

theorem piece_idx_zero : piece_idx 0 = 0 := by decide

/-- One ply of `apply_move`, expressed on raw masks: the five measure
components about the mover's board strictly decrease in total. -/
theorem ply_core (coll bP bQ td : Nat) (hP : bP < 65536) (hto : td < 16)
    (hnot : (coll ||| bit (piece_idx bP)).testBit td = false) :
    40 * (16 - cnt (coll ||| bit (piece_idx bP)))
      + cnt (((bP &&& (65535 ^^^ bit (piece_idx bP))) ||| bit td) &&&
          (coll ||| bit (piece_idx bP)))
      + cnt (bQ &&& (coll ||| bit (piece_idx bP)))
      + zeroB ((bP &&& (65535 ^^^ bit (piece_idx bP))) ||| bit td) + zeroB bQ + 1
    ≤ 40 * (16 - cnt coll) + cnt (bP &&& coll) + cnt (bQ &&& coll) + zeroB bP + zeroB bQ := by
  have hme : piece_idx bP < 16 := piece_idx_lt bP
  set me := piece_idx bP with hme_def
  rw [Nat.testBit_or] at hnot
  obtain ⟨hcoto, hbitto⟩ := Bool.or_eq_false_iff.mp hnot
  have hmeto : me ≠ td := by
    rw [testBit_bit] at hbitto
    simpa using hbitto
  have htoC : (⟨td, hto⟩ : Fin 16) ∉ toFS coll := by
    rw [mem_toFS]
    simp [hcoto]
  have hP'ne : ((bP &&& (65535 ^^^ bit me)) ||| bit td) ≠ 0 := by
    have hbit : ((bP &&& (65535 ^^^ bit me)) ||| bit td).testBit td = true := by
      rw [Nat.testBit_or, testBit_bit]
      simp
    exact ne_zero_of_testBit hbit
  have hzP' : zeroB ((bP &&& (65535 ^^^ bit me)) ||| bit td) = 0 := by
    unfold zeroB
    rw [if_neg hP'ne]
  have hC' : toFS (coll ||| bit me) = insert ⟨me, hme⟩ (toFS coll) := by
    rw [toFS_or, toFS_bit hme]
    ext i
    simp [Finset.mem_union, Finset.mem_insert]
    tauto
  have hP' : toFS ((bP &&& (65535 ^^^ bit me)) ||| bit td) =
      insert ⟨td, hto⟩ ((toFS bP).erase ⟨me, hme⟩) := by
    rw [toFS_or, toFS_clear hme, toFS_bit hto]
    ext i
    simp [Finset.mem_union, Finset.mem_insert]
    tauto
  have htm : (⟨td, hto⟩ : Fin 16) ≠ (⟨me, hme⟩ : Fin 16) := by
    intro h
    exact hmeto (by simpa using (Fin.mk.injEq _ _ _ _ ▸ h.symm))
  by_cases hmC : (⟨me, hme⟩ : Fin 16) ∈ toFS coll
  · -- the mover's cell is already collapsed
    have hCeq : toFS (coll ||| bit me) = toFS coll := by
      rw [hC', Finset.insert_eq_self.mpr hmC]
    by_cases hmP : (⟨me, hme⟩ : Fin 16) ∈ toFS bP
    · -- a set bit of the mover's board gets consumed
      have h1 : cnt (((bP &&& (65535 ^^^ bit me)) ||| bit td) &&& (coll ||| bit me)) + 1 =
          cnt (bP &&& coll) := by
        unfold cnt
        rw [toFS_and, hP', hCeq, toFS_and]
        have hseteq : (insert ⟨td, hto⟩ ((toFS bP).erase ⟨me, hme⟩)) ∩ toFS coll =
            ((toFS bP) ∩ toFS coll).erase ⟨me, hme⟩ := by
          ext i
          simp only [Finset.mem_inter, Finset.mem_insert, Finset.mem_erase]
          constructor
          · rintro ⟨rfl | ⟨hne, hiP⟩, hiC⟩
            · exact absurd hiC htoC
            · exact ⟨hne, hiP, hiC⟩
          · rintro ⟨hne, hiP, hiC⟩
            exact ⟨Or.inr ⟨hne, hiP⟩, hiC⟩
        rw [hseteq]
        exact Finset.card_erase_add_one (Finset.mem_inter.mpr ⟨hmP, hmC⟩)
      have hzP : zeroB bP = 0 := by
        unfold zeroB
        rw [if_neg (ne_zero_of_testBit (mem_toFS.mp hmP))]
      have h2 : cnt (bQ &&& (coll ||| bit me)) = cnt (bQ &&& coll) := by
        unfold cnt
        rw [toFS_and, hCeq, toFS_and]
      unfold cnt at *
      rw [hCeq] at *
      omega
    · -- the mover's board has no low set bit at its own cell: it is empty
      have hbP0 : bP = 0 := by
        by_contra hne
        exact hmP (mem_toFS.mpr (piece_idx_testBit hP hne))
      have hzP : zeroB bP = 1 := by
        unfold zeroB
        rw [if_pos hbP0]
      have h1 : cnt (((bP &&& (65535 ^^^ bit me)) ||| bit td) &&& (coll ||| bit me)) = 0 := by
        unfold cnt
        rw [toFS_and, hP', hCeq]
        subst hbP0
        rw [toFS_zero]
        refine Finset.card_eq_zero.mpr (Finset.eq_empty_iff_forall_not_mem.mpr ?_)
        intro x hx
        obtain ⟨hx1, hx2⟩ := Finset.mem_inter.mp hx
        rcases Finset.mem_insert.mp hx1 with rfl | hx1'
        · exact htoC hx2
        · simp at hx1'
      have h2 : cnt (bQ &&& (coll ||| bit me)) = cnt (bQ &&& coll) := by
        unfold cnt
        rw [toFS_and, hCeq, toFS_and]
      have h3 : cnt (bP &&& coll) = 0 := by
        subst hbP0
        unfold cnt
        rw [toFS_and, toFS_zero]
        simp
      unfold cnt at *
      rw [hCeq] at *
      omega
  · -- a fresh cell collapses: the dominant term drops by 40
    have h1 : cnt (coll ||| bit me) = cnt coll + 1 := by
      unfold cnt
      rw [hC']
      exact Finset.card_insert_of_not_mem hmC
    have hc15 : cnt coll ≤ 15 := by
      have := cnt_le_16 (coll ||| bit me)
      omega
    have h2 : cnt (((bP &&& (65535 ^^^ bit me)) ||| bit td) &&& (coll ||| bit me)) ≤
        cnt (bP &&& coll) := by
      unfold cnt
      rw [toFS_and, hP', hC', toFS_and]
      apply Finset.card_le_card
      intro x hx
      obtain ⟨hx1, hx2⟩ := Finset.mem_inter.mp hx
      rcases Finset.mem_insert.mp hx1 with rfl | hx1'
      · rcases Finset.mem_insert.mp hx2 with h | h
        · exact absurd h htm
        · exact absurd h htoC
      · obtain ⟨hxne, hxP⟩ := Finset.mem_erase.mp hx1'
        rcases Finset.mem_insert.mp hx2 with h | h
        · exact absurd h hxne
        · exact Finset.mem_inter.mpr ⟨hxP, h⟩
    have h3 : cnt (bQ &&& (coll ||| bit me)) ≤ cnt (bQ &&& coll) + 1 := by
      unfold cnt
      rw [toFS_and, hC', toFS_and]
      have hsub : toFS bQ ∩ insert ⟨me, hme⟩ (toFS coll) ⊆
          insert ⟨me, hme⟩ (toFS bQ ∩ toFS coll) := by
        intro x hx
        obtain ⟨hx1, hx2⟩ := Finset.mem_inter.mp hx
        rcases Finset.mem_insert.mp hx2 with rfl | h
        · exact Finset.mem_insert_self _ _
        · exact Finset.mem_insert_of_mem (Finset.mem_inter.mpr ⟨hx1, h⟩)
      calc (toFS bQ ∩ insert ⟨me, hme⟩ (toFS coll)).card
          ≤ (insert (⟨me, hme⟩ : Fin 16) (toFS bQ ∩ toFS coll)).card :=
            Finset.card_le_card hsub
        _ ≤ (toFS bQ ∩ toFS coll).card + 1 := Finset.card_insert_le _ _
    have hzPle := zeroB_le_one bP
    omega

theorem apply_move_turn0 {s : BitState} (ht : s.turn = 0) (fr td : Nat) :
    apply_move s fr td =
      ⟨s.bbA, s.bb2, s.bb3, s.bb4, (s.bbX &&& (65535 ^^^ bit fr)) ||| bit td, s.bbO,
       s.bbCollapsed ||| bit fr, 1⟩ := by
  simp [apply_move, ht]

theorem apply_move_turn1 {s : BitState} (ht : ¬ s.turn = 0) (fr td : Nat) :
    apply_move s fr td =
      ⟨s.bbA, s.bb2, s.bb3, s.bb4, s.bbX, (s.bbO &&& (65535 ^^^ bit fr)) ||| bit td,
       s.bbCollapsed ||| bit fr, 0⟩ := by
  simp [apply_move, ht]

theorem apply_move_Wf {s : BitState} (hWf : Wf16 s) {fr td : Nat} (hfr : fr < 16)
    (htd : td < 16) : Wf16 (apply_move s fr td) := by
  have hbit : ∀ k, k < 16 → bit k < 65536 := by
    intro k hk
    calc bit k = 2 ^ k := bit_eq_two_pow k
    _ ≤ 2 ^ 15 := Nat.pow_le_pow_right (by norm_num) (by omega)
    _ < 65536 := by norm_num
  have h16 : (65536 : ℕ) = 2 ^ 16 := by norm_num
  have hor : ∀ x y : Nat, x < 65536 → y < 65536 → x ||| y < 65536 := by
    intro x y hx hy
    rw [h16] at hx hy ⊢
    exact Nat.or_lt_two_pow hx hy
  have hand : ∀ x y : Nat, x < 65536 → x &&& y < 65536 :=
    fun x y hx => lt_of_le_of_lt Nat.and_le_left hx
  by_cases ht : s.turn = 0
  · rw [apply_move_turn0 ht]
    exact ⟨hor _ _ (hand _ _ hWf.1) (hbit td htd), hWf.2.1,
      hor _ _ hWf.2.2 (hbit fr hfr)⟩
  · rw [apply_move_turn1 ht]
    exact ⟨hWf.1, hor _ _ (hand _ _ hWf.2.1) (hbit td htd),
      hor _ _ hWf.2.2 (hbit fr hfr)⟩

/-- A legal single ply strictly decreases the measure. -/
theorem ply_decrease {s : BitState} (hWf : Wf16 s) {td : Nat} (htd : td < 16)
    (hnot : (s.bbCollapsed ||| bit (currentPlayerIndex s)).testBit td = false) :
    measure2 (apply_move s (currentPlayerIndex s) td) + 1 ≤ measure2 s := by
  by_cases ht : s.turn = 0
  · have hcur : currentPlayerIndex s = piece_idx s.bbX := by
      simp [currentPlayerIndex, ht]
    rw [hcur] at hnot ⊢
    rw [apply_move_turn0 ht]
    simp only [measure2]
    have hco := ply_core s.bbCollapsed s.bbX s.bbO td hWf.1 htd hnot
    omega
  · have hcur : currentPlayerIndex s = piece_idx s.bbO := by
      simp [currentPlayerIndex, ht]
    rw [hcur] at hnot ⊢
    rw [apply_move_turn1 ht]
    simp only [measure2]
    have hco := ply_core s.bbCollapsed s.bbO s.bbX td hWf.2.1 htd hnot
    omega

theorem insertStable_perm (lt : α → α → Bool) (x : α) (l : List α) :
    (insertStable lt x l).Perm (x :: l) := by
  induction l with
  | nil => simp [insertStable]
  | cons y ys ihl =>
    simp only [insertStable]
    split
    · exact List.Perm.refl _
    · exact (List.Perm.cons y ihl).trans (List.Perm.swap x y ys)

theorem stableSort_perm (lt : α → α → Bool) (l : List α) : (stableSort lt l).Perm l := by
  have key : ∀ (l acc : List α),
      (l.foldl (fun a x => insertStable lt x a) acc).Perm (acc ++ l) := by
    intro l
    induction l with
    | nil => intro acc; simp
    | cons x xs ihl =>
      intro acc
      exact (ihl (insertStable lt x acc)).trans
        (((insertStable_perm lt x acc).append_right xs).trans List.perm_middle.symm)
  simpa [stableSort] using key l []

theorem mem_orderedMoves {s : BitState} {m : Nat × Nat} :
    m ∈ orderedMoves s ↔ m ∈ rawMoves s :=
  (stableSort_perm moveLt (rawMoves s)).mem_iff

theorem move_to_encode {f t : Nat} (ht : t < 16) : move_to (encode_move f t) = t := by
  have h15 : f &&& 15 < 16 := lt_of_le_of_lt Nat.and_le_right (by norm_num)
  have heq : encode_move f t = encode_move (f &&& 15) t := by
    unfold encode_move
    rw [Nat.and_assoc]
    simp [Nat.and_self]
  rw [heq]
  exact (by decide : ∀ a < 16, ∀ b < 16, move_to (encode_move a b) = b) _ h15 _ ht

theorem encode_ne_255 {f t : Nat} (hf : f < 16) (ht : t < 16) (hne : t ≠ f) :
    encode_move f t ≠ 255 :=
  (by decide : ∀ a < 16, ∀ b < 16, b ≠ a → encode_move a b ≠ 255) _ hf _ ht hne

theorem mem_rawMoves {s : BitState} {m : Nat × Nat} (hm : m ∈ rawMoves s) :
    ∃ d ∈ bitsOf (destinationsOf s), m.1 = encode_move (currentPlayerIndex s) d ∧
      move_to m.1 = d := by
  obtain ⟨d, hd, rfl⟩ := List.mem_map.mp hm
  exact ⟨d, hd, rfl, move_to_encode (dest_mem_facts hd).1⟩

theorem orderedMove_to_mem {s : BitState} {m : Nat × Nat} (hm : m ∈ orderedMoves s) :
    move_to m.1 ∈ bitsOf (destinationsOf s) := by
  obtain ⟨d, hd, -, hto⟩ := mem_rawMoves (mem_orderedMoves.mp hm)
  rw [hto]
  exact hd

theorem one_ply_facts {s : BitState} (hWf : Wf16 s) {d : Nat}
    (hd : d ∈ bitsOf (destinationsOf s)) :
    Wf16 (apply_move s (currentPlayerIndex s) d) ∧
    measure2 (apply_move s (currentPlayerIndex s) d) + 1 ≤ measure2 s := by
  obtain ⟨hd16, hcoll, hne⟩ := dest_mem_facts hd
  have hnot : (s.bbCollapsed ||| bit (currentPlayerIndex s)).testBit d = false := by
    rw [Nat.testBit_or, testBit_bit, hcoll]
    simp [Ne.symm hne]
  exact ⟨apply_move_Wf hWf (currentPlayerIndex_lt s) hd16, ply_decrease hWf hd16 hnot⟩

theorem two_ply_facts {s : BitState} (hWf : Wf16 s) {d j : Nat}
    (hd : d ∈ bitsOf (destinationsOf s))
    (hj : j ∈ bitsOf (destinationsOf (apply_move s (currentPlayerIndex s) d))) :
    Wf16 (apply_move (apply_move s (currentPlayerIndex s) d)
      (currentPlayerIndex (apply_move s (currentPlayerIndex s) d)) j) ∧
    measure2 (apply_move (apply_move s (currentPlayerIndex s) d)
      (currentPlayerIndex (apply_move s (currentPlayerIndex s) d)) j) + 2 ≤ measure2 s := by
  obtain ⟨hWf1, hm1⟩ := one_ply_facts hWf hd
  obtain ⟨hWf2, hm2⟩ := one_ply_facts hWf1 hj
  exact ⟨hWf2, by omega⟩

theorem scanReplies_congr {r1 r2 : BitState → Answer} (s' : BitState) :
    ∀ (l : List Nat) (acc : ReplyAcc),
    (∀ j ∈ l, r1 (apply_move s' (currentPlayerIndex s') j) =
      r2 (apply_move s' (currentPlayerIndex s') j)) →
    scanReplies r1 s' l acc = scanReplies r2 s' l acc := by
  intro l
  induction l with
  | nil => intro acc _; rfl
  | cons j rest ihl =>
    intro acc h
    simp only [scanReplies]
    rw [h j (by simp)]
    exact ihl _ (fun j' hj' => h j' (by simp [hj']))

theorem searchLoop_congr {r1 r2 : BitState → Answer} (s : BitState) :
    ∀ (l : List (Nat × Nat)) (blp : Int) (blm : Nat),
    (∀ m ∈ l, evalMove r1 s m.1 = evalMove r2 s m.1) →
    searchLoop r1 s l blp blm = searchLoop r2 s l blp blm := by
  intro l
  induction l with
  | nil => intro blp blm _; rfl
  | cons m rest ihl =>
    intro blp blm h
    simp only [searchLoop]
    rw [h m (by simp)]
    have hrest : ∀ (a : Int) (b : Nat),
        searchLoop r1 s rest a b = searchLoop r2 s rest a b :=
      fun a b => ihl a b (fun m' hm' => h m' (by simp [hm']))
    split
    · rfl
    · split <;> split <;> exact hrest _ _

theorem measure2_le (s : BitState) : measure2 s ≤ 674 := by
  unfold measure2
  have h1 := cnt_le_16 s.bbCollapsed
  have h2 := cnt_le_16 (s.bbX &&& s.bbCollapsed)
  have h3 := cnt_le_16 (s.bbO &&& s.bbCollapsed)
  have h4 := zeroB_le_one s.bbX
  have h5 := zeroB_le_one s.bbO
  omega

/-- Fuel irrelevance: past the measure bound, the fuel does not change the
answer, so the recursion terminates and `solve` is total. -/
theorem solveRec_fuel_eq : ∀ f g (s : BitState), Wf16 s → measure2 s / 2 < f →
    measure2 s / 2 < g → solveRec f s = solveRec g s := by
  intro f
  induction f with
  | zero =>
    intro g s _ h1 _
    exact absurd h1 (by omega)
  | succ f ih =>
    intro g s hWf h1 h2
    cases g with
    | zero => exact absurd h2 (by omega)
    | succ g =>
      simp only [solveRec]
      by_cases hterm : destinationsOf s = 0
      · rw [if_pos hterm, if_pos hterm]
      · rw [if_neg hterm, if_neg hterm]
        apply searchLoop_congr
        intro m hm
        unfold evalMove
        apply scanReplies_congr
        intro j hj
        have hd := orderedMove_to_mem hm
        have h2p := two_ply_facts hWf hd hj
        exact ih g _ h2p.1 (by omega) (by omega)

/-- Any fuel past the bound computes `solve`. -/
theorem solveRec_eq_solve (f : Nat) (s : BitState) (hWf : Wf16 s)
    (hf : measure2 s / 2 < f) : solveRec f s = solve s :=
  solveRec_fuel_eq f 338 s hWf hf (by have := measure2_le s; omega)

/-- C10 counterexample: from a state whose players both stand on collapsed
cells, two consecutive legal plies (exactly the two plies of one solver
recursion step) leave the collapsed mask unchanged, refuting the claim
that the collapsed mask strictly grows within every two consecutive
plies. -/
theorem c10_counterexample :
    (destinationsOf c10State).testBit 1 = true ∧
    currentPlayerIndex c10State = 0 ∧
    (destinationsOf (apply_move c10State 0 1)).testBit 6 = true ∧
    currentPlayerIndex (apply_move c10State 0 1) = 2 ∧
    (apply_move (apply_move c10State 0 1) 2 6).bbCollapsed = c10State.bbCollapsed := by
  decide

/-- C10 (amended): for every 16-bit state, degenerate ones included, the
recursive solve terminates: a bounded measure strictly decreases at every
ply, the recursion depth is bounded by a constant, and the fueled
recursion is fuel-independent past fuel 338 — `solve` is a total function
of the state. -/
theorem c10_termination (s : BitState) (f g : Nat) (hWf : Wf16 s)
    (hf : 338 ≤ f) (hg : 338 ≤ g) : solveRec f s = solveRec g s := by
  have hb := measure2_le s
  exact solveRec_fuel_eq f g s hWf (by omega) (by omega)

theorem c10_termination_witness :
    Wf16 exS1 ∧ 338 ≤ 400 ∧ 338 ≤ 500 ∧ solveRec 400 exS1 = solveRec 500 exS1 :=
  ⟨by decide, by decide, by decide, c10_termination exS1 400 500 (by decide) (by decide)
    (by decide)⟩

/-! The search loop computes the minimax OR/AND value (claim C1). -/

theorem scanReplies_allWin (recur : BitState → Answer) (s' : BitState) :
    ∀ (l : List Nat) (acc : ReplyAcc),
    (scanReplies recur s' l acc).allWin =
      (acc.allWin && l.all (fun j =>
        (recur (apply_move s' (currentPlayerIndex s') j)).win)) := by
  intro l
  induction l with
  | nil => intro acc; simp [scanReplies]
  | cons j rest ihl =>
    intro acc
    simp only [scanReplies]
    rw [ihl]
    cases hw : (recur (apply_move s' (currentPlayerIndex s') j)).win <;>
      simp [hw, Bool.and_assoc, Bool.and_comm, Bool.and_left_comm]

theorem evalMove_allWin (recur : BitState → Answer) (s : BitState) (mv : Nat) :
    (evalMove recur s mv).allWin =
      ((bitsOf (destinationsOf (apply_move s (currentPlayerIndex s) (move_to mv)))).all
        (fun j => (recur (apply_move (apply_move s (currentPlayerIndex s) (move_to mv))
          (currentPlayerIndex (apply_move s (currentPlayerIndex s) (move_to mv))) j)).win)) := by
  unfold evalMove
  rw [scanReplies_allWin]
  simp

theorem scanReplies_bLPFT_ge (recur : BitState → Answer) (s' : BitState) :
    ∀ (l : List Nat) (acc : ReplyAcc), 2 ≤ acc.bestLossPliesForThis →
    2 ≤ (scanReplies recur s' l acc).bestLossPliesForThis := by
  intro l
  induction l with
  | nil => intro acc h; simpa [scanReplies] using h
  | cons j rest ihl =>
    intro acc h
    simp only [scanReplies]
    apply ihl
    split
    · simp only
      split <;> omega
    · simpa using h

theorem evalMove_bLPFT_ge (recur : BitState → Answer) (s : BitState) (mv : Nat) :
    2 ≤ (evalMove recur s mv).bestLossPliesForThis := by
  unfold evalMove
  apply scanReplies_bLPFT_ge
  show 2 ≤ 1 <<< 29
  decide

theorem searchLoop_win (recur : BitState → Answer) (s : BitState) :
    ∀ (l : List (Nat × Nat)) (blp : Int) (blm : Nat),
    ((searchLoop recur s l blp blm).win = true ↔
      ∃ m ∈ l, (evalMove recur s m.1).allWin = true) := by
  intro l
  induction l with
  | nil =>
    intro blp blm
    simp [searchLoop]
  | cons m rest ihl =>
    intro blp blm
    simp only [searchLoop]
    by_cases hA : (evalMove recur s m.1).allWin = true
    · rw [if_pos hA]
      simp [hA]
    · rw [if_neg hA]
      generalize (if (evalMove recur s m.1).bestLossPliesForThis = 1 <<< 29 then 2
        else (evalMove recur s m.1).bestLossPliesForThis) = B
      constructor
      · intro h
        have hex : ∃ m' ∈ rest, (evalMove recur s m'.1).allWin = true := by
          split at h
          · exact (ihl _ _).mp h
          · exact (ihl _ _).mp h
        obtain ⟨m', hm', hw⟩ := hex
        exact ⟨m', by simp [hm'], hw⟩
      · rintro ⟨m', hm', hwin⟩
        rcases List.mem_cons.mp hm' with rfl | hm''
        · exact absurd hwin hA
        · split
          · exact (ihl _ _).mpr ⟨m', hm'', hwin⟩
          · exact (ihl _ _).mpr ⟨m', hm'', hwin⟩

theorem searchLoop_best_ne (recur : BitState → Answer) (s : BitState) :
    ∀ (l : List (Nat × Nat)) (blp : Int) (blm : Nat),
    (∀ m ∈ l, m.1 ≠ 255) →
    ((2 ≤ blp ∧ blm ≠ 255) ∨ (blp = -1 ∧ blm = 255 ∧ l ≠ [])) →
    (searchLoop recur s l blp blm).best_move ≠ 255 := by
  intro l
  induction l with
  | nil =>
    intro blp blm _ hinv
    rcases hinv with ⟨-, hblm⟩ | ⟨-, -, hnil⟩
    · simpa [searchLoop] using hblm
    · exact absurd rfl hnil
  | cons m rest ihl =>
    intro blp blm h255 hinv
    simp only [searchLoop]
    by_cases hA : (evalMove recur s m.1).allWin = true
    · rw [if_pos hA]
      exact h255 m (by simp)
    · rw [if_neg hA]
      have hge := evalMove_bLPFT_ge recur s m.1
      have hblft : 2 ≤ (if (evalMove recur s m.1).bestLossPliesForThis = 1 <<< 29 then 2
          else (evalMove recur s m.1).bestLossPliesForThis) := by
        split <;> omega
      have hrest : ∀ m' ∈ rest, m'.1 ≠ 255 := fun m' hm' => h255 m' (by simp [hm'])
      generalize hB : (if (evalMove recur s m.1).bestLossPliesForThis = 1 <<< 29 then 2
        else (evalMove recur s m.1).bestLossPliesForThis) = B
      rw [hB] at hblft
      have hBI : (2 : Int) ≤ (B : Int) := by exact_mod_cast hblft
      split
      · exact ihl _ _ hrest (Or.inl ⟨by exact_mod_cast hblft, h255 m (by simp)⟩)
      · rename_i hcmp
        have hblp : 2 ≤ blp := by
          rcases hinv with ⟨h2, -⟩ | ⟨hm1, -, -⟩
          · exact h2
          · exfalso
            apply hcmp
            omega
        have hblm : blm ≠ 255 := by
          rcases hinv with ⟨-, hb⟩ | ⟨hm1, -, -⟩
          · exact hb
          · omega
        exact ihl _ _ hrest (Or.inl ⟨hblp, hblm⟩)

theorem orderedMoves_move_ne_255 {s : BitState} {m : Nat × Nat}
    (hm : m ∈ orderedMoves s) : m.1 ≠ 255 := by
  obtain ⟨d, hd, henc, -⟩ := mem_rawMoves (mem_orderedMoves.mp hm)
  obtain ⟨hd16, -, hne⟩ := dest_mem_facts hd
  rw [henc]
  exact encode_ne_255 (currentPlayerIndex_lt s) hd16 hne

theorem orderedMoves_ne_nil {s : BitState} (h : destinationsOf s ≠ 0) :
    orderedMoves s ≠ [] := by
  intro hnil
  have hlen := (stableSort_perm moveLt (rawMoves s)).length_eq
  rw [show stableSort moveLt (rawMoves s) = orderedMoves s from rfl, hnil] at hlen
  simp only [List.length_nil] at hlen
  have hbits : bitsOf (destinationsOf s) = [] := by
    have := congrArg List.length (rfl : rawMoves s = rawMoves s)
    unfold rawMoves at hlen
    rw [List.length_map] at hlen
    exact List.length_eq_zero.mp hlen.symm
  exact h ((bitsOf_eq_nil_iff (destinationsOf_lt s)).mp hbits)

theorem solve_unfold (s : BitState) : solve s =
    if destinationsOf s = 0 then ⟨false, 0xFF, 0⟩
    else searchLoop (fun t => solveRec 337 t) s (orderedMoves s) (-1) 0xFF := by
  show solveRec (337 + 1) s = _
  rw [solveRec]

theorem solve_terminal {s : BitState} (h : destinationsOf s = 0) :
    solve s = ⟨false, 0xFF, 0⟩ := by
  rw [solve_unfold, if_pos h]

theorem child_fuel_eq {s : BitState} (hWf : Wf16 s) {d j : Nat}
    (hd : d ∈ bitsOf (destinationsOf s))
    (hj : j ∈ bitsOf (destinationsOf (apply_move s (currentPlayerIndex s) d))) :
    solveRec 337 (apply_move (apply_move s (currentPlayerIndex s) d)
      (currentPlayerIndex (apply_move s (currentPlayerIndex s) d)) j) =
    solve (apply_move (apply_move s (currentPlayerIndex s) d)
      (currentPlayerIndex (apply_move s (currentPlayerIndex s) d)) j) := by
  have h2p := two_ply_facts hWf hd hj
  have hms := measure2_le s
  exact solveRec_eq_solve 337 _ h2p.1 (by omega)

/-- C1: the solver obeys the OR/AND minimax structure: in a terminal
position (no legal move) it returns `{win := false, best := 0xFF,
plies := 0}`; otherwise its win flag is the OR over the mover's legal
moves of the AND over all opponent replies of the two-plies-down
recursive answer's win flag, and `best_move` is `0xFF` exactly in the
terminal case. -/
theorem c1_solver_minimax (s : BitState) (hWf : Wf16 s) :
    (destinationsOf s = 0 → solve s = ⟨false, 0xFF, 0⟩) ∧
    ((solve s).win = true ↔
      ∃ d ∈ bitsOf (destinationsOf s),
        ∀ j ∈ bitsOf (destinationsOf (apply_move s (currentPlayerIndex s) d)),
          (solve (apply_move (apply_move s (currentPlayerIndex s) d)
            (currentPlayerIndex (apply_move s (currentPlayerIndex s) d)) j)).win = true) ∧
    ((solve s).best_move = 0xFF ↔ destinationsOf s = 0) := by
  refine ⟨fun h => solve_terminal h, ?_, ?_⟩
  · by_cases hterm : destinationsOf s = 0
    · rw [solve_terminal hterm]
      constructor
      · intro h
        simp at h
      · rintro ⟨d, hd, -⟩
        rw [hterm] at hd
        have : d ∈ bitsOf 0 := hd
        simp [bitsOf, and_bit_bne, Nat.zero_testBit] at this
    · rw [solve_unfold, if_neg hterm, searchLoop_win]
      constructor
      · rintro ⟨m, hm, hwin⟩
        obtain ⟨d, hd, henc, hto⟩ := mem_rawMoves (mem_orderedMoves.mp hm)
        refine ⟨d, hd, ?_⟩
        rw [evalMove_allWin, hto] at hwin
        intro j hj
        have hallj := List.all_eq_true.mp hwin j hj
        rwa [child_fuel_eq hWf hd hj] at hallj
      · rintro ⟨d, hd, hall⟩
        refine ⟨(encode_move (currentPlayerIndex s) d,
          popcount16 (destinationsOf (apply_move s (currentPlayerIndex s) d))), ?_, ?_⟩
        · exact mem_orderedMoves.mpr (List.mem_map.mpr ⟨d, hd, rfl⟩)
        · rw [evalMove_allWin]
          simp only
          rw [move_to_encode (dest_mem_facts hd).1]
          apply List.all_eq_true.mpr
          intro j hj
          rw [child_fuel_eq hWf hd hj]
          exact hall j hj
  · constructor
    · intro hbm
      by_contra hterm
      have hne := searchLoop_best_ne (fun t => solveRec 337 t) s (orderedMoves s) (-1) 0xFF
        (fun m hm => orderedMoves_move_ne_255 hm)
        (Or.inr ⟨rfl, rfl, orderedMoves_ne_nil hterm⟩)
      rw [solve_unfold, if_neg hterm] at hbm
      exact hne hbm
    · intro h
      rw [solve_terminal h]

theorem c1_solver_minimax_witness :
    Wf16 c8State1 ∧
    ((destinationsOf c8State1 = 0 → solve c8State1 = ⟨false, 0xFF, 0⟩) ∧
    ((solve c8State1).win = true ↔
      ∃ d ∈ bitsOf (destinationsOf c8State1),
        ∀ j ∈ bitsOf (destinationsOf (apply_move c8State1 (currentPlayerIndex c8State1) d)),
          (solve (apply_move (apply_move c8State1 (currentPlayerIndex c8State1) d)
            (currentPlayerIndex (apply_move c8State1 (currentPlayerIndex c8State1) d))
            j)).win = true) ∧
    ((solve c8State1).best_move = 0xFF ↔ destinationsOf c8State1 = 0)) :=
  ⟨by decide, c1_solver_minimax c8State1 (by decide)⟩

/-! Plies bounds and loss-plies evaluation of the search loop (claim C2). -/

theorem scanReplies_worstWin_le {recur : BitState → Answer} {s' : BitState} {P : Nat}
    (hc : ∀ t, (recur t).plies ≤ P) :
    ∀ (l : List Nat) (acc : ReplyAcc), acc.worstWinPlies ≤ P + 2 →
    (scanReplies recur s' l acc).worstWinPlies ≤ P + 2 := by
  intro l
  induction l with
  | nil => intro acc h; simpa [scanReplies] using h
  | cons j rest ihl =>
    intro acc h
    simp only [scanReplies]
    apply ihl
    have := hc (apply_move s' (currentPlayerIndex s') j)
    split
    · simpa using h
    · simp only
      split <;> omega

theorem scanReplies_bLPFT_mono {recur : BitState → Answer} {s' : BitState} :
    ∀ (l : List Nat) (acc : ReplyAcc),
    (scanReplies recur s' l acc).bestLossPliesForThis ≤ acc.bestLossPliesForThis := by
  intro l
  induction l with
  | nil => intro acc; simp [scanReplies]
  | cons j rest ihl =>
    intro acc
    simp only [scanReplies]
    refine le_trans (ihl _) ?_
    split
    · simp only
      split <;> omega
    · simp

theorem scanReplies_loss_bound {recur : BitState → Answer} {s' : BitState} {P : Nat}
    (hc : ∀ t, (recur t).plies ≤ P) :
    ∀ (l : List Nat) (acc : ReplyAcc), acc.allWin = true →
    (scanReplies recur s' l acc).allWin = false →
    (scanReplies recur s' l acc).bestLossPliesForThis ≤ P + 2 := by
  intro l
  induction l with
  | nil => intro acc h1 h2; rw [scanReplies] at h2; rw [h1] at h2; simp at h2
  | cons j rest ihl =>
    intro acc h1 h2
    rw [scanReplies] at h2 ⊢
    by_cases hw : (recur (apply_move s' (currentPlayerIndex s') j)).win = false
    · rw [if_pos hw] at h2 ⊢
      have hch := hc (apply_move s' (currentPlayerIndex s') j)
      refine le_trans (scanReplies_bLPFT_mono rest _) ?_
      simp only
      split <;> omega
    · rw [if_neg hw] at h2 ⊢
      exact ihl _ (by simpa using h1) h2

theorem searchLoop_plies_le {recur : BitState → Answer} {s : BitState} {P : Nat}
    (hc : ∀ t, (recur t).plies ≤ P) :
    ∀ (l : List (Nat × Nat)) (blp : Int) (blm : Nat), blp ≤ ((P : Int) + 2) →
    (searchLoop recur s l blp blm).plies ≤ P + 2 := by
  intro l
  induction l with
  | nil =>
    intro blp blm hblp
    simp only [searchLoop]
    refine le_trans (Nat.mod_le _ _) ?_
    split
    · omega
    · omega
  | cons m rest ihl =>
    intro blp blm hblp
    simp only [searchLoop]
    split
    · refine le_trans (Nat.mod_le _ _) ?_
      have hww : (evalMove recur s m.1).worstWinPlies ≤ P + 2 :=
        scanReplies_worstWin_le hc _ _ (by simp)
      split <;> omega
    · rename_i hAW
      have hblft : (if (evalMove recur s m.1).bestLossPliesForThis = 1 <<< 29 then 2
          else (evalMove recur s m.1).bestLossPliesForThis) ≤ P + 2 := by
        have hb := scanReplies_loss_bound hc _ (⟨true, 0, 1 <<< 29⟩ : ReplyAcc) rfl
          (by simpa [evalMove] using hAW)
        split
        · omega
        · exact hb
      generalize hB : (if (evalMove recur s m.1).bestLossPliesForThis = 1 <<< 29 then 2
        else (evalMove recur s m.1).bestLossPliesForThis) = B
      rw [hB] at hblft
      split
      · exact ihl _ _ (by exact_mod_cast hblft)
      · exact ihl _ _ hblp

theorem solveRec_plies_le : ∀ (f : Nat) (s : BitState), (solveRec f s).plies ≤ 2 * f := by
  intro f
  induction f with
  | zero => intro s; simp [solveRec]
  | succ f ih =>
    intro s
    simp only [solveRec]
    split
    · simp
    · have h : (searchLoop (fun t => solveRec f t) s (orderedMoves s)
          (-1) 0xFF).plies ≤ 2 * f + 2 :=
        searchLoop_plies_le (fun t => ih t) (orderedMoves s) (-1) 0xFF (by omega)
      omega

/-- Under all-losing moves the loop returns the loss flag and the clamped
maximum of the per-move loss plies. -/
theorem searchLoop_loss_eval (recur : BitState → Answer) (s : BitState) :
    ∀ (l : List (Nat × Nat)) (blp : Int) (blm : Nat),
    (∀ m ∈ l, (evalMove recur s m.1).allWin = false) →
    (searchLoop recur s l blp blm).win = false ∧
    (searchLoop recur s l blp blm).plies =
      (if (l.foldl (fun (b : Int) m =>
            max b (((if (evalMove recur s m.1).bestLossPliesForThis = 1 <<< 29 then 2
              else (evalMove recur s m.1).bestLossPliesForThis) : Nat) : Int)) blp) < 0 then 0
       else (l.foldl (fun (b : Int) m =>
            max b (((if (evalMove recur s m.1).bestLossPliesForThis = 1 <<< 29 then 2
              else (evalMove recur s m.1).bestLossPliesForThis) : Nat) : Int)) blp).toNat)
      % 65536 := by
  intro l
  induction l with
  | nil =>
    intro blp blm _
    constructor
    · simp [searchLoop]
    · rfl
  | cons m rest ihl =>
    intro blp blm hall
    have hmf : (evalMove recur s m.1).allWin = false := hall m (by simp)
    have hrest : ∀ m' ∈ rest, (evalMove recur s m'.1).allWin = false :=
      fun m' hm' => hall m' (by simp [hm'])
    simp only [searchLoop, List.foldl_cons]
    rw [if_neg (by simp [hmf])]
    generalize hB : (if (evalMove recur s m.1).bestLossPliesForThis = 1 <<< 29 then 2
      else (evalMove recur s m.1).bestLossPliesForThis) = B
    split
    · rename_i hcmp
      have hmax : max blp ((B : Nat) : Int) = ((B : Nat) : Int) := max_eq_right (le_of_lt hcmp)
      rw [hmax]
      exact ihl _ _ hrest
    · rename_i hcmp
      have hmax : max blp ((B : Nat) : Int) = blp := max_eq_left (le_of_not_lt hcmp)
      rw [hmax]
      exact ihl _ _ hrest

/-- Clamping an integer max-fold started at -1 over naturals equals the
natural max-fold started at 0. -/
theorem int_loss_fold (l : List Nat) :
    (if (l.foldl (fun (b : Int) (x : Nat) => max b (x : Int)) (-1)) < 0 then 0
     else (l.foldl (fun (b : Int) (x : Nat) => max b (x : Int)) (-1)).toNat) =
      l.foldl Nat.max 0 := by
  have hcast : ∀ (l : List Nat) (a : Nat),
      l.foldl (fun (b : Int) (x : Nat) => max b (x : Int)) (a : Int) =
        ((l.foldl Nat.max a : Nat) : Int) := by
    intro l
    induction l with
    | nil => intro a; simp
    | cons x xs ihl =>
      intro a
      simp only [List.foldl_cons]
      rw [show max ((a : Nat) : Int) ((x : Nat) : Int) = ((Nat.max a x : Nat) : Int) by
        simp [Nat.cast_max]]
      exact ihl (Nat.max a x)
  cases l with
  | nil => simp
  | cons x xs =>
    simp only [List.foldl_cons]
    have h1 : max (-1 : Int) ((x : Nat) : Int) = ((x : Nat) : Int) :=
      max_eq_right (by omega)
    have h2 : Nat.max 0 x = x := Nat.zero_max x
    rw [h1, h2, hcast xs x]
    simp

theorem foldl_max_le (B : Nat) : ∀ (l : List Nat) (a : Nat), a ≤ B → (∀ x ∈ l, x ≤ B) →
    l.foldl Nat.max a ≤ B := by
  intro l
  induction l with
  | nil => intro a ha _; simpa using ha
  | cons x xs ihl =>
    intro a ha hx
    simp only [List.foldl_cons]
    have hm : Nat.max a x ≤ B := Nat.max_le.mpr ⟨ha, hx x (by simp)⟩
    exact ihl _ hm (fun y hy => hx y (by simp [hy]))

/-- The two solvers' reply scans agree on the all-win flag and on the loss
plies whenever the recursive answers agree on the win flag and, at losing
states, on the plies. -/
theorem scanReplies_agree {r1 r2 : BitState → Answer} (s' : BitState) :
    ∀ (l : List Nat) (acc1 acc2 : ReplyAcc),
    acc1.allWin = acc2.allWin →
    acc1.bestLossPliesForThis = acc2.bestLossPliesForThis →
    (∀ j ∈ l,
      (r1 (apply_move s' (currentPlayerIndex s') j)).win =
        (r2 (apply_move s' (currentPlayerIndex s') j)).win ∧
      ((r1 (apply_move s' (currentPlayerIndex s') j)).win = false →
        (r1 (apply_move s' (currentPlayerIndex s') j)).plies =
          (r2 (apply_move s' (currentPlayerIndex s') j)).plies)) →
    (scanReplies r1 s' l acc1).allWin = (scanReplies r2 s' l acc2).allWin ∧
    (scanReplies r1 s' l acc1).bestLossPliesForThis =
      (scanReplies r2 s' l acc2).bestLossPliesForThis := by
  intro l
  induction l with
  | nil =>
    intro acc1 acc2 hA hB _
    simpa [scanReplies] using ⟨hA, hB⟩
  | cons j rest ihl =>
    intro acc1 acc2 hA hB hch
    obtain ⟨hw, hp⟩ := hch j (by simp)
    simp only [scanReplies]
    by_cases hwin : (r1 (apply_move s' (currentPlayerIndex s') j)).win = false
    · have hwin2 : (r2 (apply_move s' (currentPlayerIndex s') j)).win = false := by
        rw [← hw]
        exact hwin
      rw [if_pos hwin, if_pos hwin2]
      exact ihl _ _ (by simp [hA]) (by simp [hB, hp hwin]) fun j' hj' => hch j' (by simp [hj'])
    · have hwin2 : ¬ (r2 (apply_move s' (currentPlayerIndex s') j)).win = false := by
        rw [← hw]
        exact hwin
      rw [if_neg hwin, if_neg hwin2]
      exact ihl _ _ (by simp [hA]) (by simp [hB]) fun j' hj' => hch j' (by simp [hj'])

theorem refMoveScore_fst (r : BitState → Answer) (s : BitState) (d : Nat) :
    (refMoveScore r s d).1 =
      (scanReplies r (apply_move s (currentPlayerIndex s) d)
        (bitsOf (destinationsOf (apply_move s (currentPlayerIndex s) d)))
        ⟨true, 0, 1 <<< 29⟩).allWin := by
  have hsh : (1 <<< 29 : Nat) = 536870912 := by decide
  simp only [refMoveScore]
  split
  · rename_i h
    rw [hsh] at h
    simp [h]
  · rename_i h
    simp only [Bool.not_eq_true] at h
    rw [hsh] at h
    simp [h]

theorem refMoveScore_snd_loss (r : BitState → Answer) (s : BitState) (d : Nat)
    (h : (scanReplies r (apply_move s (currentPlayerIndex s) d)
      (bitsOf (destinationsOf (apply_move s (currentPlayerIndex s) d)))
      ⟨true, 0, 1 <<< 29⟩).allWin = false) :
    (refMoveScore r s d).2 =
      (if (scanReplies r (apply_move s (currentPlayerIndex s) d)
            (bitsOf (destinationsOf (apply_move s (currentPlayerIndex s) d)))
            ⟨true, 0, 1 <<< 29⟩).bestLossPliesForThis = 1 <<< 29 then 2
       else (scanReplies r (apply_move s (currentPlayerIndex s) d)
            (bitsOf (destinationsOf (apply_move s (currentPlayerIndex s) d)))
            ⟨true, 0, 1 <<< 29⟩).bestLossPliesForThis) := by
  have hsh : (1 <<< 29 : Nat) = 536870912 := by decide
  have h' := h
  rw [hsh] at h'
  simp only [refMoveScore]
  rw [if_neg (by simp [h'])]

theorem solveRec_succ (f : Nat) (s : BitState) :
    solveRec (f + 1) s =
      if destinationsOf s = 0 then ⟨false, 0xFF, 0⟩
      else searchLoop (fun t => solveRec f t) s (orderedMoves s) (-1) 0xFF := by
  rw [solveRec]

theorem refRec_succ (f : Nat) (s : BitState) :
    refRec (f + 1) s =
      if destinationsOf s = 0 then ⟨false, 0xFF, 0⟩
      else
        if ((((bitsOf (destinationsOf s)).map
              (fun d => refMoveScore (fun t => refRec f t) s d)).filter
              (fun e => e.1)).map (fun e => e.2)) = [] then
          ⟨false, 0xFF, (((bitsOf (destinationsOf s)).map
            (fun d => refMoveScore (fun t => refRec f t) s d)).map
            (fun e => e.2)).foldl Nat.max 0⟩
        else
          ⟨true, 0xFF, ((((bitsOf (destinationsOf s)).map
            (fun d => refMoveScore (fun t => refRec f t) s d)).filter
            (fun e => e.1)).map (fun e => e.2)).foldl Nat.min (1 <<< 29)⟩ := by
  rw [refRec]

theorem int_loss_fold_map {α : Type} (l : List α) (g : α → Nat) :
    (if (l.foldl (fun (b : Int) m => max b ((g m : Nat) : Int)) (-1)) < 0 then 0
     else (l.foldl (fun (b : Int) m => max b ((g m : Nat) : Int)) (-1)).toNat) =
      (l.map g).foldl Nat.max 0 := by
  have h := int_loss_fold (l.map g)
  rw [List.foldl_map] at h
  exact h

/-- The heuristic, short-circuiting solver and the reference full-scoring
solver agree on the win flag everywhere and on the plies at every losing
state. -/
theorem solve_ref_agree : ∀ (f : Nat), f ≤ 32000 → ∀ (s : BitState), Wf16 s →
    (solveRec f s).win = (refRec f s).win ∧
    ((solveRec f s).win = false → (solveRec f s).plies = (refRec f s).plies) := by
  intro f
  induction f with
  | zero =>
    intro _ s _
    exact ⟨rfl, fun _ => rfl⟩
  | succ f ih =>
    intro hf s hWf
    rw [solveRec_succ, refRec_succ]
    by_cases hterm : destinationsOf s = 0
    · rw [if_pos hterm, if_pos hterm]
      exact ⟨rfl, fun _ => rfl⟩
    · rw [if_neg hterm, if_neg hterm]
      have hch : ∀ d ∈ bitsOf (destinationsOf s),
          ∀ j ∈ bitsOf (destinationsOf (apply_move s (currentPlayerIndex s) d)),
          ((fun t => solveRec f t) (apply_move (apply_move s (currentPlayerIndex s) d)
            (currentPlayerIndex (apply_move s (currentPlayerIndex s) d)) j)).win =
            ((fun t => refRec f t) (apply_move (apply_move s (currentPlayerIndex s) d)
              (currentPlayerIndex (apply_move s (currentPlayerIndex s) d)) j)).win ∧
          (((fun t => solveRec f t) (apply_move (apply_move s (currentPlayerIndex s) d)
            (currentPlayerIndex (apply_move s (currentPlayerIndex s) d)) j)).win = false →
            ((fun t => solveRec f t) (apply_move (apply_move s (currentPlayerIndex s) d)
              (currentPlayerIndex (apply_move s (currentPlayerIndex s) d)) j)).plies =
            ((fun t => refRec f t) (apply_move (apply_move s (currentPlayerIndex s) d)
              (currentPlayerIndex (apply_move s (currentPlayerIndex s) d)) j)).plies) :=
        fun d hd j hj => ih (by omega) _ (two_ply_facts hWf hd hj).1
      have hscan : ∀ d ∈ bitsOf (destinationsOf s),
          (scanReplies (fun t => solveRec f t) (apply_move s (currentPlayerIndex s) d)
            (bitsOf (destinationsOf (apply_move s (currentPlayerIndex s) d)))
            ⟨true, 0, 1 <<< 29⟩).allWin =
            (scanReplies (fun t => refRec f t) (apply_move s (currentPlayerIndex s) d)
              (bitsOf (destinationsOf (apply_move s (currentPlayerIndex s) d)))
              ⟨true, 0, 1 <<< 29⟩).allWin ∧
          (scanReplies (fun t => solveRec f t) (apply_move s (currentPlayerIndex s) d)
            (bitsOf (destinationsOf (apply_move s (currentPlayerIndex s) d)))
            ⟨true, 0, 1 <<< 29⟩).bestLossPliesForThis =
            (scanReplies (fun t => refRec f t) (apply_move s (currentPlayerIndex s) d)
              (bitsOf (destinationsOf (apply_move s (currentPlayerIndex s) d)))
              ⟨true, 0, 1 <<< 29⟩).bestLossPliesForThis :=
        fun d hd => scanReplies_agree _ _ _ _ rfl rfl (hch d hd)
      have hAWeq : ∀ m ∈ orderedMoves s,
          (evalMove (fun t => solveRec f t) s m.1).allWin =
            (refMoveScore (fun t => refRec f t) s (move_to m.1)).1 := by
        intro m hm
        have hd := orderedMove_to_mem hm
        rw [refMoveScore_fst]
        unfold evalMove
        exact (hscan (move_to m.1) hd).1
      by_cases hwp : ((((bitsOf (destinationsOf s)).map
          (fun d => refMoveScore (fun t => refRec f t) s d)).filter
          (fun e => e.1)).map (fun e => e.2)) = []
      · rw [if_pos hwp]
        have hfil : ((bitsOf (destinationsOf s)).map
            (fun d => refMoveScore (fun t => refRec f t) s d)).filter (fun e => e.1) = [] :=
          List.map_eq_nil_iff.mp hwp
        have hRf : ∀ d ∈ bitsOf (destinationsOf s),
            (refMoveScore (fun t => refRec f t) s d).1 = false := by
          intro d hd
          have hmem : refMoveScore (fun t => refRec f t) s d ∈
              (bitsOf (destinationsOf s)).map
                (fun d' => refMoveScore (fun t => refRec f t) s d') :=
            List.mem_map.mpr ⟨d, hd, rfl⟩
          have := List.filter_eq_nil_iff.mp hfil _ hmem
          simpa using this
        have hallS : ∀ m ∈ orderedMoves s,
            (evalMove (fun t => solveRec f t) s m.1).allWin = false := by
          intro m hm
          rw [hAWeq m hm]
          exact hRf (move_to m.1) (orderedMove_to_mem hm)
        obtain ⟨hwin0, hplies⟩ :=
          searchLoop_loss_eval (fun t => solveRec f t) s (orderedMoves s) (-1) 0xFF hallS
        refine ⟨by rw [hwin0], fun _ => ?_⟩
        rw [hplies]
        show _ = ((((bitsOf (destinationsOf s)).map
          (fun d => refMoveScore (fun t => refRec f t) s d)).map (fun e => e.2)).foldl
            Nat.max 0)
        rw [int_loss_fold_map (orderedMoves s) (fun m =>
          (if (evalMove (fun t => solveRec f t) s m.1).bestLossPliesForThis = 1 <<< 29 then 2
           else (evalMove (fun t => solveRec f t) s m.1).bestLossPliesForThis))]
        have hperm : ((orderedMoves s).map (fun m =>
            (if (evalMove (fun t => solveRec f t) s m.1).bestLossPliesForThis = 1 <<< 29
             then 2
             else (evalMove (fun t => solveRec f t) s m.1).bestLossPliesForThis))).Perm
            ((rawMoves s).map (fun m =>
            (if (evalMove (fun t => solveRec f t) s m.1).bestLossPliesForThis = 1 <<< 29
             then 2
             else (evalMove (fun t => solveRec f t) s m.1).bestLossPliesForThis))) :=
          (stableSort_perm moveLt (rawMoves s)).map _
        rw [hperm.foldl_eq 0]
        have hmaps : (rawMoves s).map (fun m =>
            (if (evalMove (fun t => solveRec f t) s m.1).bestLossPliesForThis = 1 <<< 29
             then 2
             else (evalMove (fun t => solveRec f t) s m.1).bestLossPliesForThis)) =
            ((bitsOf (destinationsOf s)).map
              (fun d => refMoveScore (fun t => refRec f t) s d)).map (fun e => e.2) := by
          unfold rawMoves
          rw [List.map_map, List.map_map]
          apply List.map_congr_left
          intro d hd
          simp only [Function.comp]
          have hRfd := hRf d hd
          rw [refMoveScore_fst] at hRfd
          rw [refMoveScore_snd_loss _ _ _ hRfd]
          unfold evalMove
          rw [move_to_encode (dest_mem_facts hd).1]
          rw [(hscan d hd).2]
        rw [hmaps]
        apply Nat.mod_eq_of_lt
        have hboundentries : ∀ x ∈ ((bitsOf (destinationsOf s)).map
            (fun d => refMoveScore (fun t => refRec f t) s d)).map (fun e => e.2),
            x ≤ 2 * f + 2 := by
          rw [← hmaps]
          intro x hx
          obtain ⟨m, hm, rfl⟩ := List.mem_map.mp hx
          have hmo : m ∈ orderedMoves s := mem_orderedMoves.mpr hm
          have hW := hallS m hmo
          unfold evalMove at hW
          have hb := scanReplies_loss_bound (P := 2 * f)
            (fun t => solveRec_plies_le f t) _ (⟨true, 0, 1 <<< 29⟩ : ReplyAcc) rfl hW
          unfold evalMove
          split
          · omega
          · exact hb
        have := foldl_max_le (2 * f + 2) _ 0 (by omega) hboundentries
        omega
      · rw [if_neg hwp]
        have hfilne : ((bitsOf (destinationsOf s)).map
            (fun d => refMoveScore (fun t => refRec f t) s d)).filter (fun e => e.1) ≠ [] := by
          intro h0
          exact hwp (by rw [h0]; rfl)
        obtain ⟨e, he⟩ := List.exists_mem_of_ne_nil _ hfilne
        obtain ⟨hes, heT⟩ := List.mem_filter.mp he
        obtain ⟨d, hd, rfl⟩ := List.mem_map.mp hes
        have hmo : (encode_move (currentPlayerIndex s) d,
            popcount16 (destinationsOf (apply_move s (currentPlayerIndex s) d))) ∈
            orderedMoves s :=
          mem_orderedMoves.mpr (List.mem_map.mpr ⟨d, hd, rfl⟩)
        have hexists : ∃ m ∈ orderedMoves s,
            (evalMove (fun t => solveRec f t) s m.1).allWin = true := by
          refine ⟨_, hmo, ?_⟩
          rw [hAWeq _ hmo]
          simp only
          rw [move_to_encode (dest_mem_facts hd).1]
          simpa using heT
        have hw1 : (searchLoop (fun t => solveRec f t) s (orderedMoves s) (-1) 0xFF).win
            = true := (searchLoop_win _ s _ _ _).mpr hexists
        refine ⟨by rw [hw1], fun hfalse => ?_⟩
        rw [hw1] at hfalse
        simp at hfalse

/-- C2 counterexample: on this winning position the solver short-circuits and
reports 3 plies for its first winning move in heuristic order, while the
minimum over all winning moves (the spec's claim) is 1 ply. -/
theorem c2_counterexample :
    (solve c2State).win = true ∧ (refSolve c2State).win = true ∧
    (solve c2State).plies = 3 ∧ (refSolve c2State).plies = 1 := by
  decide

/-- C2 (amended): at every well-formed state the solver agrees with the
minimax reference on the win flag, and when the side to move loses it also
reports the reference (maximal) losing ply count; the claimed minimality of
the reported winning ply count does not hold (see the counterexample). -/
theorem c2_solver_plies (s : BitState) (hWf : Wf16 s) :
    (solve s).win = (refSolve s).win ∧
    ((solve s).win = false → (solve s).plies = (refSolve s).plies) :=
  solve_ref_agree 338 (by omega) s hWf

theorem c2_solver_plies_witness :
    Wf16 exTerm ∧
    ((solve exTerm).win = (refSolve exTerm).win ∧
     ((solve exTerm).win = false → (solve exTerm).plies = (refSolve exTerm).plies)) :=
  ⟨by decide, c2_solver_plies exTerm (by decide)⟩

/-- C3: at this state the side to move has two legal root moves, the
top-level search short-circuits on a winning first move, and — because
`Solver::solve` only runs `compute_root_move_metrics` when the collected
list is empty — the exposed metric list holds a single entry instead of one
entry per legal root move. -/
theorem c3_root_metrics_truncated :
    (solveWithMetrics c3State).1.win = true ∧
    (solveWithMetrics c3State).2.length = 1 ∧
    (bitsOf (destinationsOf c3State)).length = 2 := by
  decide

theorem bit_clear_self : ∀ f', f' < 16 → bit f' &&& (65535 ^^^ bit f') = 0 := by decide

theorem popcount16_bit : ∀ k, k < 16 → popcount16 (bit k) = 1 := by decide

theorem cnt_or_fresh {c fr : Nat} (hfr : fr < 16) (hfree : c.testBit fr = false) :
    cnt (c ||| bit fr) = cnt c + 1 := by
  unfold cnt
  rw [toFS_or, toFS_bit hfr, Finset.union_comm, ← Finset.insert_eq]
  apply Finset.card_insert_of_not_mem
  intro hmem
  rw [mem_toFS] at hmem
  exact absurd hmem (by simp [hfree])

/-- C5 counterexample: the claim's premises hold at this state (single-bit
player boards, turn 0, the mover standing on the from-square) yet the
from-square is already collapsed, so apply_move sets no new bit in the
collapsed mask. -/
theorem c5_counterexample :
    popcount16 c5State.bbX = 1 ∧ popcount16 c5State.bbO = 1 ∧ c5State.turn = 0 ∧
    c5State.bbX = bit 0 ∧
    (apply_move c5State 0 1).bbCollapsed = c5State.bbCollapsed := by
  decide

/-- C5 (amended): with the additional premise that the from-square is not
already collapsed, apply_move collapses exactly the from-square, moves the
single mover bit to the destination, keeps both position popcounts at 1,
flips the turn, and leaves the card masks and the other player's board
unchanged. -/
theorem c5_apply_move_frame (s : BitState) (fr td : Nat)
    (hfr : fr < 16) (htd : td < 16) (ht2 : s.turn < 2)
    (hmover : (if s.turn = 0 then s.bbX else s.bbO) = bit fr)
    (hother : ∃ j, j < 16 ∧ (if s.turn = 0 then s.bbO else s.bbX) = bit j)
    (hfree : s.bbCollapsed.testBit fr = false) :
    (apply_move s fr td).bbCollapsed = s.bbCollapsed ||| bit fr ∧
    cnt (apply_move s fr td).bbCollapsed = cnt s.bbCollapsed + 1 ∧
    (if s.turn = 0 then (apply_move s fr td).bbX else (apply_move s fr td).bbO) = bit td ∧
    popcount16 (apply_move s fr td).bbX = 1 ∧
    popcount16 (apply_move s fr td).bbO = 1 ∧
    (apply_move s fr td).turn = 1 - s.turn ∧
    (apply_move s fr td).bbA = s.bbA ∧ (apply_move s fr td).bb2 = s.bb2 ∧
    (apply_move s fr td).bb3 = s.bb3 ∧ (apply_move s fr td).bb4 = s.bb4 ∧
    (if s.turn = 0 then (apply_move s fr td).bbO = s.bbO
     else (apply_move s fr td).bbX = s.bbX) := by
  obtain ⟨j, hj, hoj⟩ := hother
  have hcnt := cnt_or_fresh hfr hfree
  by_cases ht : s.turn = 0
  · have hmx : s.bbX = bit fr := by rw [if_pos ht] at hmover; exact hmover
    have hox : s.bbO = bit j := by rw [if_pos ht] at hoj; exact hoj
    have hnew : (s.bbX &&& (65535 ^^^ bit fr)) ||| bit td = bit td := by
      rw [hmx, bit_clear_self fr hfr, Nat.zero_or]
    rw [apply_move_turn0 ht]
    refine ⟨rfl, hcnt, ?_, ?_, ?_, ?_, rfl, rfl, rfl, rfl, ?_⟩
    · rw [if_pos ht]; exact hnew
    · show popcount16 ((s.bbX &&& (65535 ^^^ bit fr)) ||| bit td) = 1
      rw [hnew]; exact popcount16_bit td htd
    · show popcount16 s.bbO = 1
      rw [hox]; exact popcount16_bit j hj
    · show 1 = 1 - s.turn
      omega
    · rw [if_pos ht]
  · have hmo : s.bbO = bit fr := by rw [if_neg ht] at hmover; exact hmover
    have hxj : s.bbX = bit j := by rw [if_neg ht] at hoj; exact hoj
    have hnew : (s.bbO &&& (65535 ^^^ bit fr)) ||| bit td = bit td := by
      rw [hmo, bit_clear_self fr hfr, Nat.zero_or]
    rw [apply_move_turn1 ht]
    refine ⟨rfl, hcnt, ?_, ?_, ?_, ?_, rfl, rfl, rfl, rfl, ?_⟩
    · rw [if_neg ht]; exact hnew
    · show popcount16 s.bbX = 1
      rw [hxj]; exact popcount16_bit j hj
    · show popcount16 ((s.bbO &&& (65535 ^^^ bit fr)) ||| bit td) = 1
      rw [hnew]; exact popcount16_bit td htd
    · show 0 = 1 - s.turn
      omega
    · rw [if_neg ht]

theorem c5_apply_move_frame_witness :
    ((0 : Nat) < 16 ∧ (1 : Nat) < 16 ∧ exS1.turn < 2 ∧
     (if exS1.turn = 0 then exS1.bbX else exS1.bbO) = bit 0 ∧
     exS1.bbCollapsed.testBit 0 = false) ∧
    ((apply_move exS1 0 1).bbCollapsed = exS1.bbCollapsed ||| bit 0 ∧
     cnt (apply_move exS1 0 1).bbCollapsed = cnt exS1.bbCollapsed + 1 ∧
     (if exS1.turn = 0 then (apply_move exS1 0 1).bbX else (apply_move exS1 0 1).bbO)
       = bit 1 ∧
     popcount16 (apply_move exS1 0 1).bbX = 1 ∧
     popcount16 (apply_move exS1 0 1).bbO = 1 ∧
     (apply_move exS1 0 1).turn = 1 - exS1.turn ∧
     (apply_move exS1 0 1).bbA = exS1.bbA ∧ (apply_move exS1 0 1).bb2 = exS1.bb2 ∧
     (apply_move exS1 0 1).bb3 = exS1.bb3 ∧ (apply_move exS1 0 1).bb4 = exS1.bb4 ∧
     (if exS1.turn = 0 then (apply_move exS1 0 1).bbO = exS1.bbO
      else (apply_move exS1 0 1).bbX = exS1.bbX)) :=
  ⟨by decide,
   c5_apply_move_frame exS1 0 1 (by decide) (by decide) (by decide) (by decide)
     ⟨5, by decide⟩ (by decide)⟩

theorem shiftRight_lt_64 {x : Nat} (k : Nat) (hx : x < 2 ^ 64) : x >>> k < 2 ^ 64 := by
  rw [Nat.shiftRight_eq_div_pow]
  exact lt_of_le_of_lt (Nat.div_le_self x (2 ^ k)) hx

/-- Inverting `v ^= v >> k` when three shifts clear every bit of a 64-bit
value: xoring in the single- and double-shifted images recovers the input. -/
theorem xorshift_inv (k x : Nat) (hk : 64 ≤ 3 * k) (hx : x < 2 ^ 64) :
    ((x ^^^ (x >>> k)) ^^^ ((x ^^^ (x >>> k)) >>> k)) ^^^ ((x ^^^ (x >>> k)) >>> (2 * k))
      = x := by
  apply Nat.eq_of_testBit_eq
  intro j
  have e1 : k + (k + j) = 2 * k + j := by ring
  have e2 : k + (2 * k + j) = 3 * k + j := by ring
  have h3 : x.testBit (3 * k + j) = false := by
    apply Nat.testBit_eq_false_of_lt
    calc x < 2 ^ 64 := hx
    _ ≤ 2 ^ (3 * k + j) := Nat.pow_le_pow_right (by norm_num) (by omega)
  simp only [Nat.testBit_xor, Nat.testBit_shiftRight]
  rw [e1, e2, h3]
  generalize x.testBit j = a
  generalize x.testBit (k + j) = b
  generalize x.testBit (2 * k + j) = c
  cases a <;> cases b <;> cases c <;> decide

theorem xorshift_injOn (k : Nat) (hk : 64 ≤ 3 * k) {x y : Nat} (hx : x < 2 ^ 64)
    (hy : y < 2 ^ 64) (h : x ^^^ (x >>> k) = y ^^^ (y >>> k)) : x = y := by
  have hxv := xorshift_inv k x hk hx
  have hyv := xorshift_inv k y hk hy
  rw [← hxv, ← hyv, h]

theorem add_mod_injOn {C x y : Nat} (hx : x < 2 ^ 64) (hy : y < 2 ^ 64)
    (h : (x + C) % 2 ^ 64 = (y + C) % 2 ^ 64) : x = y := by
  have h' : x % 2 ^ 64 = y % 2 ^ 64 := Nat.ModEq.add_right_cancel' C h
  rwa [Nat.mod_eq_of_lt hx, Nat.mod_eq_of_lt hy] at h'

/-- Multiplication mod 2^64 by a unit (given with its explicit inverse) is
injective on 64-bit values. -/
theorem mul_mod_injOn {M Minv x y : Nat} (hinv : (M * Minv) % 2 ^ 64 = 1)
    (hx : x < 2 ^ 64) (hy : y < 2 ^ 64)
    (h : (x * M) % 2 ^ 64 = (y * M) % 2 ^ 64) : x = y := by
  have h1 : x * M * Minv ≡ y * M * Minv [MOD 2 ^ 64] := Nat.ModEq.mul_right Minv h
  rw [Nat.mul_assoc, Nat.mul_assoc] at h1
  have hMM : M * Minv ≡ 1 [MOD 2 ^ 64] := by
    show (M * Minv) % 2 ^ 64 = 1 % 2 ^ 64
    rw [hinv, Nat.mod_eq_of_lt (by norm_num)]
  have h2 : x * (M * Minv) ≡ x * 1 [MOD 2 ^ 64] := Nat.ModEq.mul_left x hMM
  have h3 : y * (M * Minv) ≡ y * 1 [MOD 2 ^ 64] := Nat.ModEq.mul_left y hMM
  have h4 : x ≡ y [MOD 2 ^ 64] := by
    have h5 := (h2.symm.trans h1).trans h3
    rwa [Nat.mul_one, Nat.mul_one] at h5
  have h6 : x % 2 ^ 64 = y % 2 ^ 64 := h4
  rwa [Nat.mod_eq_of_lt hx, Nat.mod_eq_of_lt hy] at h6

/-- The SplitMix64 finalizer is injective on 64-bit values: every one of its
four stages is invertible modulo 2^64. -/
theorem mix64_inj {a b : Nat} (ha : a < 2 ^ 64) (hb : b < 2 ^ 64)
    (h : mix64 a = mix64 b) : a = b := by
  have hN : (0 : Nat) < 2 ^ 64 := by norm_num
  have hinv1 : ((0xbf58476d1ce4e5b9 : Nat) * 0x96de1b173f119089) % 2 ^ 64 = 1 := by decide
  have hinv2 : ((0x94d049bb133111eb : Nat) * 0x319642b2d24d8ec3) % 2 ^ 64 = 1 := by decide
  simp only [mix64] at h
  have h31 := xorshift_injOn 31 (by norm_num) (Nat.mod_lt _ hN) (Nat.mod_lt _ hN) h
  have h27m := mul_mod_injOn hinv2
    (Nat.xor_lt_two_pow (Nat.mod_lt _ hN) (shiftRight_lt_64 27 (Nat.mod_lt _ hN)))
    (Nat.xor_lt_two_pow (Nat.mod_lt _ hN) (shiftRight_lt_64 27 (Nat.mod_lt _ hN))) h31
  have h27 := xorshift_injOn 27 (by norm_num) (Nat.mod_lt _ hN) (Nat.mod_lt _ hN) h27m
  have h30m := mul_mod_injOn hinv1
    (Nat.xor_lt_two_pow (Nat.mod_lt _ hN) (shiftRight_lt_64 30 (Nat.mod_lt _ hN)))
    (Nat.xor_lt_two_pow (Nat.mod_lt _ hN) (shiftRight_lt_64 30 (Nat.mod_lt _ hN))) h27
  have h30 := xorshift_injOn 30 (by norm_num) (Nat.mod_lt _ hN) (Nat.mod_lt _ hN) h30m
  exact add_mod_injOn ha hb h30

theorem pair64_lt (l r : Nat) : pair64 l r < 2 ^ 64 := by
  unfold pair64
  split
  · exact Nat.mod_lt _ (by norm_num)
  · exact Nat.mod_lt _ (by norm_num)

/-- C6: hash_state is mix64 of the left pair64-fold over the eight fields,
and two states with identical bitboards but turn 0 versus turn 1 always
hash to different keys. -/
theorem c6_hash_turn (aM twoM threeM fourM xM oM collM : Nat) :
    (∀ tv, hash_state aM twoM threeM fourM xM oM collM tv =
      mix64 (List.foldl pair64 0 [aM, twoM, threeM, fourM, xM, oM, collM, tv])) ∧
    hash_state aM twoM threeM fourM xM oM collM 0 ≠
      hash_state aM twoM threeM fourM xM oM collM 1 := by
  refine ⟨fun tv => rfl, ?_⟩
  intro heq
  have hN : (2 : Nat) ^ 64 = 18446744073709551616 := by norm_num
  unfold hash_state at heq
  have hfold : ∀ tv, List.foldl pair64 0 [aM, twoM, threeM, fourM, xM, oM, collM, tv] =
      pair64 (List.foldl pair64 0 [aM, twoM, threeM, fourM, xM, oM, collM]) tv :=
    fun tv => rfl
  rw [hfold 0, hfold 1] at heq
  have hp := mix64_inj (pair64_lt _ 0) (pair64_lt _ 1) heq
  have h7lt : List.foldl pair64 0 [aM, twoM, threeM, fourM, xM, oM, collM] < 2 ^ 64 := by
    show pair64 (List.foldl pair64 0 [aM, twoM, threeM, fourM, xM, oM]) collM < 2 ^ 64
    exact pair64_lt _ _
  generalize hg : List.foldl pair64 0 [aM, twoM, threeM, fourM, xM, oM, collM] = h7 at hp h7lt
  have hp0 : pair64 h7 0 = (h7 * h7 + h7 + 0) % 2 ^ 64 := by
    unfold pair64
    rw [if_pos (Nat.zero_le h7)]
  rw [hp0] at hp
  by_cases h1 : 1 ≤ h7
  · have hp1 : pair64 h7 1 = (h7 * h7 + h7 + 1) % 2 ^ 64 := by
      unfold pair64
      rw [if_pos h1]
    rw [hp1, hN] at hp
    generalize h7 * h7 + h7 = q at hp
    omega
  · have h70 : h7 = 0 := by omega
    have hp1 : pair64 h7 1 = (h7 + 1 * 1) % 2 ^ 64 := by
      unfold pair64
      rw [if_neg (by omega)]
    rw [hp1, hN, h70] at hp
    omega

/-- `best_ok` accepts every byte: the nibbles are masked to 4 bits before
the range test, so the test can never fail. -/
theorem best_ok_true (b : Nat) : best_ok b = true := by
  unfold best_ok
  split
  · rfl
  · have h1 : (b >>> 4) &&& 0x0F < 16 := lt_of_le_of_lt Nat.and_le_right (by norm_num)
    have h2 : b &&& 0x0F < 16 := lt_of_le_of_lt Nat.and_le_right (by norm_num)
    simp [h1, h2]

theorem analyze_counts (v : List Record) : ∀ (m : BatchMetrics),
    (v.foldl analyze_step m).zero_keys =
      m.zero_keys + v.countP (fun r => decide (r.key = 0)) ∧
    (v.foldl analyze_step m).bad_move =
      m.bad_move + v.countP (fun r => decide (best_ok r.best = false)) ∧
    (v.foldl analyze_step m).plies_anom =
      m.plies_anom + (v.countP (fun r => decide (50 < r.plies)) +
        v.countP (fun r => decide (r.win = 1 ∧ r.plies < 1))) := by
  induction v with
  | nil =>
    intro m
    simp
  | cons r rest ih =>
    intro m
    simp only [List.foldl_cons, List.countP_cons]
    obtain ⟨h1, h2, h3⟩ := ih (analyze_step m r)
    refine ⟨?_, ?_, ?_⟩
    · rw [h1]
      simp only [analyze_step]
      by_cases hk : r.key = 0
      · rw [if_pos hk, if_pos (by simp [hk])]
        omega
      · rw [if_neg hk, if_neg (by simp [hk])]
        omega
    · rw [h2]
      simp only [analyze_step]
      by_cases hb : best_ok r.best = false
      · rw [if_pos hb, if_pos (by simp [hb])]
        omega
      · rw [if_neg hb, if_neg (by simp [hb])]
        omega
    · rw [h3]
      simp only [analyze_step]
      rw [if_neg (by omega : ¬ (r.win = 0 ∧ r.plies < 0))]
      by_cases hA : r.plies ≤ 50
      · by_cases hB : r.win = 1 ∧ r.plies < 1
        · rw [if_neg (by omega : ¬ ¬ r.plies ≤ 50), if_pos hB,
              if_neg (by simp only [decide_eq_true_eq]; omega),
              if_pos (by simp only [decide_eq_true_eq]; exact hB)]
          omega
        · rw [if_neg (by omega : ¬ ¬ r.plies ≤ 50), if_neg hB,
              if_neg (by simp only [decide_eq_true_eq]; omega),
              if_neg (by simp only [decide_eq_true_eq]; exact hB)]
          omega
      · by_cases hB : r.win = 1 ∧ r.plies < 1
        · rw [if_pos (by omega : ¬ r.plies ≤ 50), if_pos hB,
              if_pos (by simp only [decide_eq_true_eq]; omega),
              if_pos (by simp only [decide_eq_true_eq]; exact hB)]
          omega
        · rw [if_pos (by omega : ¬ r.plies ≤ 50), if_neg hB,
              if_pos (by simp only [decide_eq_true_eq]; omega),
              if_neg (by simp only [decide_eq_true_eq]; exact hB)]
          omega

theorem analyze_batch_counters (v : List Record) :
    (analyze_batch v).zero_keys = v.countP (fun r => decide (r.key = 0)) ∧
    (analyze_batch v).bad_move = 0 ∧
    (analyze_batch v).plies_anom = v.countP (fun r => decide (50 < r.plies)) +
      v.countP (fun r => decide (r.win = 1 ∧ r.plies < 1)) := by
  obtain ⟨h1, h2, h3⟩ := analyze_counts v ⟨v.length, 0, 0, 0, 0, 0, 0, 0, 0, 65535, 0⟩
  have hbm : v.countP (fun r => decide (best_ok r.best = false)) = 0 := by
    rw [List.countP_eq_zero]
    intro r _
    simp [best_ok_true]
  unfold analyze_batch
  split <;>
    exact ⟨by rw [h1]; exact Nat.zero_add _,
           by rw [h2, hbm],
           by rw [h3]; exact Nat.zero_add _⟩

/-- C7 counterexample: a record with win = 1 and plies = 0 makes the flush
report ANOMALY although it matches none of the claim's four conditions. -/
theorem c7_counterexample :
    flush_anomaly [c7Rec] 0 0 = true ∧ ¬ claimC7Anomaly [c7Rec] 0 0 := by
  decide

/-- C7 (amended): a flush is flagged ANOMALY exactly when the claim's four
conditions say so or the batch holds a record with win = 1 and plies < 1,
which `analyze_batch` also counts into `plies_anom`. -/
theorem c7_flush_anomaly (v : List Record) (prior cumWins1 : Nat) :
    flush_anomaly v prior cumWins1 = true ↔
      (claimC7Anomaly v prior cumWins1 ∨ ∃ r ∈ v, r.win = 1 ∧ r.plies < 1) := by
  obtain ⟨hz, hb, hp⟩ := analyze_batch_counters v
  have hkey : 0 < v.countP (fun r => decide (r.key = 0)) ↔ ∃ r ∈ v, r.key = 0 := by
    rw [List.countP_pos_iff]
    simp
  have hA : 0 < v.countP (fun r => decide (50 < r.plies)) ↔ ∃ r ∈ v, 50 < r.plies := by
    rw [List.countP_pos_iff]
    simp
  have hB : 0 < v.countP (fun r => decide (r.win = 1 ∧ r.plies < 1)) ↔
      ∃ r ∈ v, r.win = 1 ∧ r.plies < 1 := by
    rw [List.countP_pos_iff]
    simp
  have hbadF : ¬ ∃ r ∈ v, r.best ≠ 0xFF ∧
      (16 ≤ (r.best >>> 4) &&& 0xF ∨ 16 ≤ r.best &&& 0xF) := by
    rintro ⟨r, _, _, hbad⟩
    have hr1 : (r.best >>> 4) &&& 0xF ≤ 0xF := Nat.and_le_right
    have hr2 : r.best &&& 0xF ≤ 0xF := Nat.and_le_right
    rcases hbad with h | h <;> omega
  have h00 : ¬ (0 : Nat) < 0 := lt_irrefl 0
  simp only [flush_anomaly, claimC7Anomaly, hz, hb, hp, Bool.or_eq_true,
    Bool.and_eq_true, decide_eq_true_eq, gt_iff_lt, ge_iff_le]
  rw [add_pos_iff]
  constructor
  · rintro (((h | h) | (h | h)) | h)
    · exact Or.inl (Or.inl (hkey.mp h))
    · exact absurd h h00
    · exact Or.inl (Or.inr (Or.inr (Or.inl (hA.mp h))))
    · exact Or.inr (hB.mp h)
    · exact Or.inl (Or.inr (Or.inr (Or.inr h)))
  · rintro ((h | h | h | h) | h)
    · exact Or.inl (Or.inl (Or.inl (hkey.mpr h)))
    · exact absurd h hbadF
    · exact Or.inl (Or.inr (Or.inl (hA.mpr h)))
    · exact Or.inr h
    · exact Or.inl (Or.inr (Or.inr (hB.mpr h)))

theorem takeWhile_all {α : Type} {p : α → Bool} :
    ∀ (l : List α), (∀ a ∈ l, p a = true) → l.takeWhile p = l := by
  intro l
  induction l with
  | nil => intro _; rfl
  | cons a as ih =>
    intro h
    rw [List.takeWhile_cons, if_pos (h a (by simp)), ih (fun x hx => h x (by simp [hx]))]

theorem parse_hex16_four (c3 c2 c1 c0 : Char) (d3 d2 d1 d0 : Nat)
    (h3 : hexVal c3 = some d3) (h2 : hexVal c2 = some d2)
    (h1 : hexVal c1 = some d1) (h0 : hexVal c0 = some d0)
    (hd : ((d3 * 16 + d2) * 16 + d1) * 16 + d0 ≤ 65535) :
    parse_hex16 [c3, c2, c1, c0] = some (((d3 * 16 + d2) * 16 + d1) * 16 + d0) := by
  have hall : ∀ c ∈ [c3, c2, c1, c0], (fun c => (hexVal c).isSome) c = true := by
    intro c hc
    simp only [List.mem_cons, List.not_mem_nil, or_false] at hc
    rcases hc with rfl | rfl | rfl | rfl <;> simp [h3, h2, h1, h0]
  simp only [parse_hex16, takeWhile_all _ hall]
  simp [h3, h2, h1, h0, hd]

theorem parse_hex16_hex4 {n : Nat} (hn : n < 65536) : parse_hex16 (hex4 n) = some n := by
  have hv : ∀ d, d < 16 → hexVal (hexChar d) = some d := by decide
  have e3 := hv (n / 4096 % 16) (Nat.mod_lt _ (by norm_num))
  have e2 := hv (n / 256 % 16) (Nat.mod_lt _ (by norm_num))
  have e1 := hv (n / 16 % 16) (Nat.mod_lt _ (by norm_num))
  have e0 := hv (n % 16) (Nat.mod_lt _ (by norm_num))
  have heq : ((n / 4096 % 16 * 16 + n / 256 % 16) * 16 + n / 16 % 16) * 16 + n % 16 = n := by
    omega
  rw [hex4, parse_hex16_four _ _ _ _ _ _ _ _ e3 e2 e1 e0 (by omega), heq]

theorem splitCommas_append_comma (l rest : List Char) (hl : ∀ c ∈ l, c ≠ ',') :
    splitCommas (l ++ ',' :: rest) = l :: splitCommas rest := by
  induction l with
  | nil => simp [splitCommas]
  | cons a as ih =>
    simp only [List.cons_append, splitCommas, List.append_eq]
    rw [if_neg (hl a (by simp)), ih (fun c hc => hl c (by simp [hc]))]
    rfl

theorem splitCommas_no_comma (l : List Char) (hl : ∀ c ∈ l, c ≠ ',') :
    splitCommas l = [l] := by
  induction l with
  | nil => rfl
  | cons a as ih =>
    simp only [splitCommas]
    rw [if_neg (hl a (by simp)), ih (fun c hc => hl c (by simp [hc]))]
    rfl

theorem intercalate_eight (l1 l2 l3 l4 l5 l6 l7 l8 : List Char) :
    List.intercalate [','] [l1, l2, l3, l4, l5, l6, l7, l8] =
      l1 ++ ',' :: (l2 ++ ',' :: (l3 ++ ',' :: (l4 ++ ',' :: (l5 ++ ',' ::
        (l6 ++ ',' :: (l7 ++ ',' :: l8)))))) := by
  simp [List.intercalate, List.intersperse]

theorem hex4_no_comma (n : Nat) : ∀ c ∈ hex4 n, c ≠ ',' := by
  have hnc : ∀ d, d < 16 → hexChar d ≠ ',' := by decide
  intro c hc
  simp only [hex4, List.mem_cons, List.not_mem_nil, or_false] at hc
  rcases hc with rfl | rfl | rfl | rfl <;> exact hnc _ (Nat.mod_lt _ (by norm_num))

/-- C9: rendering a well-formed state as the comma-separated hex string of
spec 6.5 and parsing it back with the CLI parser succeeds and returns the
same state (the turn field being masked to one bit). -/
theorem c9_state_roundtrip (s : BitState) (hWf : WfFields s) :
    parse_state_arg (renderStateArg s) = some s := by
  obtain ⟨hA, h2, h3, h4, hX, hO, hC, hT⟩ := hWf
  have hsplit : splitCommas (hex4 s.bbA ++ ',' :: (hex4 s.bb2 ++ ',' :: (hex4 s.bb3 ++
      ',' :: (hex4 s.bb4 ++ ',' :: (hex4 s.bbX ++ ',' :: (hex4 s.bbO ++ ',' ::
      (hex4 s.bbCollapsed ++ ',' :: hex4 s.turn))))))) =
      [hex4 s.bbA, hex4 s.bb2, hex4 s.bb3, hex4 s.bb4, hex4 s.bbX, hex4 s.bbO,
       hex4 s.bbCollapsed, hex4 s.turn] := by
    rw [splitCommas_append_comma _ _ (hex4_no_comma _),
        splitCommas_append_comma _ _ (hex4_no_comma _),
        splitCommas_append_comma _ _ (hex4_no_comma _),
        splitCommas_append_comma _ _ (hex4_no_comma _),
        splitCommas_append_comma _ _ (hex4_no_comma _),
        splitCommas_append_comma _ _ (hex4_no_comma _),
        splitCommas_append_comma _ _ (hex4_no_comma _),
        splitCommas_no_comma _ (hex4_no_comma _)]
  have hT16 : s.turn < 65536 := by omega
  have hturn : s.turn &&& 1 = s.turn := by
    rw [Nat.and_one_is_mod, Nat.mod_eq_of_lt (by omega)]
  unfold parse_state_arg renderStateArg
  rw [intercalate_eight, hsplit]
  simp only [parse_hex16_hex4 hA, parse_hex16_hex4 h2, parse_hex16_hex4 h3,
    parse_hex16_hex4 h4, parse_hex16_hex4 hX, parse_hex16_hex4 hO,
    parse_hex16_hex4 hC, parse_hex16_hex4 hT16, Option.some_bind, hturn]

theorem c9_state_roundtrip_witness :
    WfFields exS1 ∧ parse_state_arg (renderStateArg exS1) = some exS1 :=
  ⟨by decide, c9_state_roundtrip exS1 (by decide)⟩

theorem solveRecC_succ (f : Nat) (c : Cache) (s : BitState) :
    solveRecC (f + 1) c s =
      match cacheLookup c (hashOf s) with
      | some a => (a, c)
      | none =>
          if destinationsOf s = 0 then
            (⟨false, 0xFF, 0⟩, cacheInsert c (hashOf s) ⟨false, 0xFF, 0⟩)
          else
            ((searchLoopC (fun c' t => solveRecC f c' t) s (orderedMoves s) (-1) 0xFF c).1,
             cacheInsert (searchLoopC (fun c' t => solveRecC f c' t) s (orderedMoves s)
                 (-1) 0xFF c).2 (hashOf s)
               (searchLoopC (fun c' t => solveRecC f c' t) s (orderedMoves s)
                 (-1) 0xFF c).1) := by
  rw [solveRecC]

theorem cacheConsistent_nil (V : List BitState) : CacheConsistent V [] := by
  intro k a h
  simp [cacheLookup, List.lookup] at h

theorem cacheConsistent_insert {V : List BitState} {c : Cache} {σ : BitState}
    {a : Answer} (hcc : CacheConsistent V c) (hσ : σ ∈ V) (ha : solve σ = a) :
    CacheConsistent V (cacheInsert c (hashOf σ) a) := by
  intro k b hb
  unfold cacheInsert at hb
  cases hl : List.lookup (hashOf σ) c with
  | some x =>
      simp only [hl] at hb
      exact hcc k b hb
  | none =>
      simp only [hl] at hb
      by_cases hk : k = hashOf σ
      · have hbeq : (k == hashOf σ) = true := beq_iff_eq.mpr hk
        have hcons : cacheLookup ((hashOf σ, a) :: c) k = some a := by
          simp only [cacheLookup, List.lookup, hbeq]
        rw [hcons] at hb
        cases hb
        exact ⟨σ, hσ, hk.symm, ha⟩
      · have hbeq : (k == hashOf σ) = false := beq_eq_false_iff_ne.mpr hk
        have hcons : cacheLookup ((hashOf σ, a) :: c) k = cacheLookup c k := by
          simp only [cacheLookup, List.lookup, hbeq]
        rw [hcons] at hb
        exact hcc k b hb

theorem scanRepliesC_eq {V : List BitState} (R : Cache → BitState → Answer × Cache)
    (r : BitState → Answer) (s' : BitState) :
    ∀ (js : List Nat) (acc : ReplyAcc) (c : Cache),
    CacheConsistent V c →
    (∀ j ∈ js, ∀ c', CacheConsistent V c' →
      (R c' (apply_move s' (currentPlayerIndex s') j)).1 =
        r (apply_move s' (currentPlayerIndex s') j) ∧
      CacheConsistent V (R c' (apply_move s' (currentPlayerIndex s') j)).2) →
    (scanRepliesC R s' js (acc, c)).1 = scanReplies r s' js acc ∧
    CacheConsistent V (scanRepliesC R s' js (acc, c)).2 := by
  intro js
  induction js with
  | nil =>
    intro acc c hcc _
    exact ⟨rfl, hcc⟩
  | cons j rest ih =>
    intro acc c hcc hrec
    obtain ⟨hj1, hj2⟩ := hrec j (by simp) c hcc
    simp only [scanRepliesC, scanReplies]
    rw [hj1]
    exact ih _ _ hj2 (fun j' hj' => hrec j' (by simp [hj']))

theorem evalMoveC_eq {V : List BitState} (R : Cache → BitState → Answer × Cache)
    (r : BitState → Answer) (s : BitState) (mv : Nat) (c : Cache)
    (hcc : CacheConsistent V c)
    (hrec : ∀ j ∈ bitsOf (destinationsOf (apply_move s (currentPlayerIndex s)
        (move_to mv))), ∀ c', CacheConsistent V c' →
      (R c' (apply_move (apply_move s (currentPlayerIndex s) (move_to mv))
        (currentPlayerIndex (apply_move s (currentPlayerIndex s) (move_to mv))) j)).1 =
        r (apply_move (apply_move s (currentPlayerIndex s) (move_to mv))
          (currentPlayerIndex (apply_move s (currentPlayerIndex s) (move_to mv))) j) ∧
      CacheConsistent V (R c' (apply_move (apply_move s (currentPlayerIndex s)
        (move_to mv))
        (currentPlayerIndex (apply_move s (currentPlayerIndex s) (move_to mv))) j)).2) :
    (evalMoveC R s mv c).1 = evalMove r s mv ∧
    CacheConsistent V (evalMoveC R s mv c).2 := by
  unfold evalMoveC evalMove
  exact scanRepliesC_eq R r _ _ _ c hcc hrec

theorem searchLoopC_eq {V : List BitState} (R : Cache → BitState → Answer × Cache)
    (r : BitState → Answer) (s : BitState) :
    ∀ (l : List (Nat × Nat)) (blp : Int) (blm : Nat) (c : Cache),
    CacheConsistent V c →
    (∀ m ∈ l, ∀ j ∈ bitsOf (destinationsOf (apply_move s (currentPlayerIndex s)
        (move_to m.1))), ∀ c', CacheConsistent V c' →
      (R c' (apply_move (apply_move s (currentPlayerIndex s) (move_to m.1))
        (currentPlayerIndex (apply_move s (currentPlayerIndex s) (move_to m.1))) j)).1 =
        r (apply_move (apply_move s (currentPlayerIndex s) (move_to m.1))
          (currentPlayerIndex (apply_move s (currentPlayerIndex s) (move_to m.1))) j) ∧
      CacheConsistent V (R c' (apply_move (apply_move s (currentPlayerIndex s)
        (move_to m.1))
        (currentPlayerIndex (apply_move s (currentPlayerIndex s) (move_to m.1))) j)).2) →
    (searchLoopC R s l blp blm c).1 = searchLoop r s l blp blm ∧
    CacheConsistent V (searchLoopC R s l blp blm c).2 := by
  intro l
  induction l with
  | nil =>
    intro blp blm c hcc _
    exact ⟨rfl, hcc⟩
  | cons m rest ih =>
    intro blp blm c hcc hrec
    have hm := evalMoveC_eq (V := V) R r s m.1 c hcc (hrec m (by simp))
    simp only [searchLoopC, searchLoop]
    rw [hm.1]
    split
    · exact ⟨rfl, hm.2⟩
    · split <;> split <;>
        exact ih _ _ _ hm.2 (fun m' hm' => hrec m' (by simp [hm']))

theorem mem_childStates {s : BitState} {d j : Nat}
    (hd : d ∈ bitsOf (destinationsOf s))
    (hj : j ∈ bitsOf (destinationsOf (apply_move s (currentPlayerIndex s) d))) :
    apply_move (apply_move s (currentPlayerIndex s) d)
      (currentPlayerIndex (apply_move s (currentPlayerIndex s) d)) j ∈ childStates s := by
  simp only [childStates, List.mem_flatMap, List.mem_map]
  exact ⟨d, hd, j, hj, rfl⟩

/-- The cached recursion computes the cache-free answer and preserves
cache consistency, for any state of a family that is closed under the
two-ply recursion, free of hash aliasing, and well-formed. -/
theorem solveRecC_sound (V : List BitState) (hCl : ClosedUnder V) (hNA : NoAlias V)
    (hWfV : ∀ σ ∈ V, Wf16 σ) :
    ∀ (f : Nat) (s : BitState), s ∈ V → measure2 s / 2 < f → ∀ (c : Cache),
    CacheConsistent V c →
    (solveRecC f c s).1 = solve s ∧ CacheConsistent V (solveRecC f c s).2 := by
  intro f
  induction f with
  | zero =>
    intro s _ hm _ _
    exact absurd hm (by omega)
  | succ f ih =>
    intro s hsV hm c hcc
    rw [solveRecC_succ]
    cases hlook : cacheLookup c (hashOf s) with
    | some a =>
      obtain ⟨σ, hσV, hσk, hσa⟩ := hcc (hashOf s) a hlook
      have hsa : solve s = a := by
        rw [← hσa]
        exact (hNA σ hσV s hsV hσk).symm
      exact ⟨hsa.symm, hcc⟩
    | none =>
      by_cases hterm : destinationsOf s = 0
      · rw [if_pos hterm]
        exact ⟨(solve_terminal hterm).symm,
          cacheConsistent_insert hcc hsV (solve_terminal hterm)⟩
      · rw [if_neg hterm]
        have hWfs := hWfV s hsV
        have hrec : ∀ m ∈ orderedMoves s, ∀ j ∈ bitsOf (destinationsOf
            (apply_move s (currentPlayerIndex s) (move_to m.1))), ∀ c',
            CacheConsistent V c' →
            (solveRecC f c' (apply_move (apply_move s (currentPlayerIndex s)
              (move_to m.1))
              (currentPlayerIndex (apply_move s (currentPlayerIndex s)
                (move_to m.1))) j)).1 =
              solve (apply_move (apply_move s (currentPlayerIndex s) (move_to m.1))
                (currentPlayerIndex (apply_move s (currentPlayerIndex s)
                  (move_to m.1))) j) ∧
            CacheConsistent V (solveRecC f c' (apply_move (apply_move s
              (currentPlayerIndex s) (move_to m.1))
              (currentPlayerIndex (apply_move s (currentPlayerIndex s)
                (move_to m.1))) j)).2 := by
          intro m hmm j hj c' hcc'
          have hd := orderedMove_to_mem hmm
          have hτV := hCl s hsV _ (mem_childStates hd hj)
          have h2p := two_ply_facts hWfs hd hj
          exact ih _ hτV (by omega) c' hcc'
        obtain ⟨h1, h2⟩ := searchLoopC_eq (V := V) (fun c' t => solveRecC f c' t)
          (fun t => solve t) s (orderedMoves s) (-1) 0xFF c hcc hrec
        have hpure : searchLoop (fun t => solve t) s (orderedMoves s) (-1) 0xFF =
            solve s := by
          rw [solve_unfold, if_neg hterm]
          apply searchLoop_congr
          intro m hmm
          unfold evalMove
          apply scanReplies_congr
          intro j hj
          exact (child_fuel_eq hWfs (orderedMove_to_mem hmm) hj).symm
        have hans : (searchLoopC (fun c' t => solveRecC f c' t) s (orderedMoves s)
            (-1) 0xFF c).1 = solve s := by
          rw [h1, hpure]
        refine ⟨hans, ?_⟩
        rw [hans]
        exact cacheConsistent_insert h2 hsV rfl

theorem runSolves_consistent (V : List BitState) (hCl : ClosedUnder V)
    (hNA : NoAlias V) (hWfV : ∀ σ ∈ V, Wf16 σ) :
    ∀ (l : List BitState), (∀ σ ∈ l, σ ∈ V) → ∀ (c : Cache), CacheConsistent V c →
    CacheConsistent V (runSolves c l) := by
  intro l
  induction l with
  | nil =>
    intro _ c hcc
    exact hcc
  | cons σ rest ih =>
    intro hl c hcc
    have hσV := hl σ (by simp)
    have hm : measure2 σ / 2 < 338 := by
      have := measure2_le σ
      omega
    have h := (solveRecC_sound V hCl hNA hWfV 338 σ hσV hm c hcc).2
    show CacheConsistent V (runSolves (solveC c σ).2 rest)
    exact ih (fun τ hτ => hl τ (by simp [hτ])) _ h

/-- C8 counterexample: these two distinct states collide under hash_state,
so a solver instance that solved the first state answers the colliding
cache entry for the second, while a fresh instance answers differently —
solve on the same state is not independent of earlier solves. -/
theorem c8_counterexample :
    hashOf c8State1 = hashOf c8State2 ∧ c8State1 ≠ c8State2 ∧
    (solveC (solveC [] c8State1).2 c8State2).1 ≠ (solveC [] c8State2).1 := by
  decide

/-- C8 (amended): on any family of states closed under the solver's
two-ply recursion, well-formed, and free of hash-key aliasing, the solver
is deterministic: solving any prior list of family states on the same
instance first does not change the answer for a family state. -/
theorem c8_determinism (V prior : List BitState) (s : BitState)
    (hCl : ClosedUnder V) (hNA : NoAlias V) (hWfV : ∀ σ ∈ V, Wf16 σ)
    (hpr : ∀ σ ∈ prior, σ ∈ V) (hs : s ∈ V) :
    (solveC (runSolves [] prior) s).1 = (solveC [] s).1 := by
  have hm : measure2 s / 2 < 338 := by
    have := measure2_le s
    omega
  have hc0 : CacheConsistent V [] := cacheConsistent_nil V
  have hcp := runSolves_consistent V hCl hNA hWfV prior hpr [] hc0
  have h1 := (solveRecC_sound V hCl hNA hWfV 338 s hs hm (runSolves [] prior) hcp).1
  have h2 := (solveRecC_sound V hCl hNA hWfV 338 s hs hm [] hc0).1
  unfold solveC
  unfold solveC at h1 h2
  rw [h1, h2]

theorem c8_determinism_witness :
    (ClosedUnder [exTerm] ∧ NoAlias [exTerm] ∧ (∀ σ ∈ [exTerm], Wf16 σ) ∧
     (∀ σ ∈ [exTerm], σ ∈ [exTerm]) ∧ exTerm ∈ [exTerm]) ∧
    (solveC (runSolves [] [exTerm]) exTerm).1 = (solveC [] exTerm).1 :=
  ⟨⟨by decide, by decide, by decide, by decide, by decide⟩,
   c8_determinism [exTerm] [exTerm] exTerm (by decide) (by decide) (by decide)
     (by decide) (by decide)⟩

end Collapsi
